import Mathlib

/-!
# Name-suggestion generator (`alliteration/main.go`)

A shallow embedding of `generateSuggestions` and its helpers
(`filterByInitialLetter`, `normalizeCombination`, `contains`).

Modelling conventions

* A Go `string` is its byte sequence: `Str = List Nat` (each element a byte
  value), `len` is `List.length`, `+` on strings is `++`, and string
  comparison is bytewise lexicographic.
* Go `int` values that may be negative (`count`, `maxLength`) are `Int`;
  lengths are `Nat` and are cast when compared with them.
* The process-global random source is a stream `rs : Nat → Nat` read through
  a cursor: the draw `rand.Intn(n)` at cursor `cur` is `rs cur % n` and moves
  the cursor by one.
* `strings.ToLower` and the title caser `cases.Title(language.English)` are
  library functions outside the repository; the embedding takes them as the
  parameters `toLower` and `titleCaser`.
* The outer `for` loop of `generateSuggestions` has no bound of its own, so it
  is run with fuel: each iteration uses one unit and running out is reported
  as `Fault.outOfFuel`. An index out of range (a Go panic) is
  `Fault.indexOutOfRange`.
-/

namespace Alliteration

/-- A Go string, as its sequence of bytes. -/
abbrev Str := List Nat

/-- The bytes of an ASCII literal. -/
def str (s : String) : Str := s.toList.map Char.toNat

/-- The ways a run of the embedding stops without a result. -/
inductive Fault where
  | indexOutOfRange
  | outOfFuel
deriving DecidableEq

deriving instance DecidableEq for Except

/-- The value of `rand.Intn(n)` drawn at cursor `cur` of the random stream. -/
def Intn (rs : Nat → Nat) (cur : Nat) (n : Nat) : Nat := rs cur % n

/-- The Go index expression `xs[i]`, which panics out of range. -/
def index (xs : List Str) (i : Nat) : Except Fault Str :=
  match xs[i]? with
  | some w => .ok w
  | none => .error .indexOutOfRange

/-- The swap closure handed to `rand.Shuffle`:
`xs[i], xs[j] = xs[j], xs[i]`. -/
def swap (xs : List Str) (i j : Nat) : List Str :=
  (xs.set i (xs.getD j [])).set j (xs.getD i [])

/-- The loop of `rand.Shuffle` (Fisher-Yates, from the last index down):
`for ; i > 0; i-- { j := Intn(i+1); swap(i, j) }`. -/
def shuffleLoop (rs : Nat → Nat) : Nat → List Str → Nat → List Str × Nat
  | 0, xs, cur => (xs, cur)
  | i + 1, xs, cur => shuffleLoop rs i (swap xs (i + 1) (Intn rs cur (i + 2))) (cur + 1)

/-- The call `rand.Shuffle(len(xs), swap)`: the shuffled slice and the cursor
after it. -/
def Shuffle (rs : Nat → Nat) (xs : List Str) (cur : Nat) : List Str × Nat :=
  shuffleLoop rs (xs.length - 1) xs cur

/-- Helper function: filter words by their initial letter. -/
def filterByInitialLetter (words : List Str) (initial : Nat) : List Str :=
  words.filter fun word => decide (0 < word.length) && decide (word.head? = some initial)

/-- Go string comparison `a <= b`: bytewise lexicographic. -/
def strLe : Str → Str → Bool
  | [], _ => true
  | _ :: _, [] => false
  | a :: s, b :: t => decide (a < b) || (decide (a = b) && strLe s t)

/-- The call `sort.Strings`: the words in increasing order. -/
def sortStrings (words : List Str) : List Str :=
  words.insertionSort (fun a b => strLe a b = true)

/-- The call `strings.Join(elems, " ")`. -/
def joinSpace (elems : List Str) : Str := List.intercalate [32] elems

/-- Helper function: normalize a combination by sorting the words
alphabetically. -/
def normalizeCombination (words : List Str) : Str :=
  joinSpace (sortStrings words)

/-- Helper function: check if a word exists in a slice. -/
def contains : List Str → Str → Bool
  | [], _ => false
  | w :: rest, word => if w = word then true else contains rest word

/-- The word choice of one pick attempt: the chosen word (`""` when nothing is
chosen) and the cursor after the draws it made.
`if len(adjectives) > 0 && rand.Intn(2) == 0 { adjectives[rand.Intn(..)] }
 else if len(nouns) > 0 { nouns[rand.Intn(..)] }`. -/
def pickWord (adjectives nouns : List Str) (rs : Nat → Nat) (cur : Nat) :
    Except Fault (Str × Nat) :=
  if 0 < adjectives.length then
    if Intn rs cur 2 = 0 then
      match index adjectives (Intn rs (cur + 1) adjectives.length) with
      | .ok word => .ok (word, cur + 2)
      | .error e => .error e
    else if 0 < nouns.length then
      match index nouns (Intn rs (cur + 1) nouns.length) with
      | .ok word => .ok (word, cur + 2)
      | .error e => .error e
    else .ok ([], cur + 1)
  else if 0 < nouns.length then
    match index nouns (Intn rs cur nouns.length) with
    | .ok word => .ok (word, cur + 1)
    | .error e => .error e
  else .ok ([], cur)

/-- The local variables of one candidate of the outer loop. -/
structure Candidate where
  suggestion : Str
  usedWords : List Str
  length : Nat
  attempts : Nat
  wordCount : Nat
  cur : Nat
deriving DecidableEq

/-- The safety counter of the inner loop. -/
def maxAttempts : Nat := 100

/-- The candidate at the start of an outer iteration, after the draw of
`wordLimit`. -/
def newCandidate (name : Str) (cur : Nat) : Candidate :=
  { suggestion := name, usedWords := [], length := name.length,
    attempts := 0, wordCount := 0, cur := cur }

/-- The body of the inner loop after the word is picked: the uniqueness check
against `usedWords`, title-casing, and the append when it fits. -/
def appendWord (titleCaser : Str → Str) (maxLength : Int) (c : Candidate) (word : Str) :
    Candidate :=
  if word ≠ [] ∧ contains c.usedWords word = false then
    let word := titleCaser word
    if (c.length : Int) + (word.length : Int) ≤ maxLength then
      { c with suggestion := c.suggestion ++ word,
               usedWords := c.usedWords ++ [word],
               length := c.length + word.length,
               wordCount := c.wordCount + 1 }
    else c
  else c

/-- The inner loop
`for length < maxLength && attempts < maxAttempts && wordCount < wordLimit`.
The first argument is fuel; `maxAttempts` units are always enough. -/
def pickLoop (titleCaser : Str → Str) (adjectives nouns : List Str) (maxLength : Int)
    (wordLimit : Nat) (rs : Nat → Nat) : Nat → Candidate → Except Fault Candidate
  | 0, c =>
    if (c.length : Int) < maxLength ∧ c.attempts < maxAttempts ∧ c.wordCount < wordLimit then
      .error .outOfFuel
    else .ok c
  | fuel + 1, c =>
    if (c.length : Int) < maxLength ∧ c.attempts < maxAttempts ∧ c.wordCount < wordLimit then
      match pickWord adjectives nouns rs c.cur with
      | .error e => .error e
      | .ok (word, cur) =>
        let c1 := appendWord titleCaser maxLength
          { c with attempts := c.attempts + 1, cur := cur } word
        if adjectives.length + nouns.length ≤ c1.usedWords.length then .ok c1
        else pickLoop titleCaser adjectives nouns maxLength wordLimit rs fuel c1
    else .ok c

/-- The variables of the outer loop. `combos` is a ghost: it records, for each
accepted suggestion and in the same order, the `usedWords` it was built from.
`usedCombinations` lists the keys of the Go map in insertion order. -/
structure GenState where
  suggestions : List Str
  combos : List (List Str)
  usedCombinations : List Str
  cur : Nat
deriving DecidableEq

/-- The assignment `usedCombinations[key] = true` on the key list of the map. -/
def mapSet (keys : List Str) (key : Str) : List Str :=
  if key ∈ keys then keys else keys ++ [key]

/-- The acceptance step of the outer loop: the candidate is appended when it
fits and its normalized combination is new. -/
def accept (maxLength : Int) (st : GenState) (c : Candidate) : GenState :=
  let normalized := normalizeCombination c.usedWords
  if (c.suggestion.length : Int) ≤ maxLength ∧ normalized ∉ st.usedCombinations then
    { suggestions := st.suggestions ++ [c.suggestion],
      combos := st.combos ++ [c.usedWords],
      usedCombinations := mapSet st.usedCombinations normalized,
      cur := c.cur }
  else { st with cur := c.cur }

/-- The outer loop `for len(suggestions) < count`, run with fuel (one unit per
iteration). -/
def outerLoop (titleCaser : Str → Str) (name : Str) (count : Int)
    (adjectives nouns : List Str) (maxLength : Int) (rs : Nat → Nat) :
    Nat → GenState → Except Fault GenState
  | 0, st =>
    if (st.suggestions.length : Int) < count then .error .outOfFuel else .ok st
  | fuel + 1, st =>
    if (st.suggestions.length : Int) < count then
      let wordLimit := Intn rs st.cur 5 + 1
      match pickLoop titleCaser adjectives nouns maxLength wordLimit rs maxAttempts
          (newCandidate name (st.cur + 1)) with
      | .error e => .error e
      | .ok c =>
        let st1 := accept maxLength st c
        if adjectives.length * nouns.length ≤ st1.usedCombinations.length then .ok st1
        else outerLoop titleCaser name count adjectives nouns maxLength rs fuel st1
    else .ok st

/-- What a call of `generateSuggestions` leaves behind: the final loop state,
the word lists in effect in the loops (after filtering and shuffling), and the
contents of the caller's two slices after the call. -/
structure Outcome where
  state : GenState
  adjectives : List Str
  nouns : List Str
  callerAdjectives : List Str
  callerNouns : List Str
deriving DecidableEq

/-- The two shuffles and the outer loop, on the word lists in effect. -/
def generateFrom (titleCaser : Str → Str) (rs : Nat → Nat) (fuel : Nat) (name : Str)
    (count : Int) (adjectives nouns : List Str) (maxLength : Int) :
    Except Fault (GenState × List Str × List Str) :=
  let (adjectives, cur) := Shuffle rs adjectives 0
  let (nouns, cur) := Shuffle rs nouns cur
  match outerLoop titleCaser name count adjectives nouns maxLength rs fuel
      { suggestions := [], combos := [], usedCombinations := [], cur := cur } with
  | .error e => .error e
  | .ok st => .ok (st, adjectives, nouns)

/-- The function `generateSuggestions`, with everything it leaves behind.
With `alliteration` the loops run on fresh filtered slices and the caller's
slices are untouched; without it the shuffles run in place on the caller's
slices. -/
def generateSuggestionsRun (toLower titleCaser : Str → Str) (rs : Nat → Nat) (fuel : Nat)
    (name : Str) (count : Int) (adjectives nouns : List Str) (alliteration : Bool)
    (maxLength : Int) : Except Fault Outcome :=
  if alliteration then
    match (toLower name)[0]? with
    | none => .error .indexOutOfRange
    | some initial =>
      let fadjectives := filterByInitialLetter adjectives initial
      let fnouns := filterByInitialLetter nouns initial
      if fadjectives.length = 0 ∨ fnouns.length = 0 then
        .ok { state := { suggestions := [], combos := [], usedCombinations := [], cur := 0 },
              adjectives := fadjectives, nouns := fnouns,
              callerAdjectives := adjectives, callerNouns := nouns }
      else
        match generateFrom titleCaser rs fuel name count fadjectives fnouns maxLength with
        | .error e => .error e
        | .ok (st, sadjectives, snouns) =>
          .ok { state := st, adjectives := sadjectives, nouns := snouns,
                callerAdjectives := adjectives, callerNouns := nouns }
  else
    match generateFrom titleCaser rs fuel name count adjectives nouns maxLength with
    | .error e => .error e
    | .ok (st, sadjectives, snouns) =>
      .ok { state := st, adjectives := sadjectives, nouns := snouns,
            callerAdjectives := sadjectives, callerNouns := snouns }

/-- The function `generateSuggestions`: the returned slice of suggestions. -/
def generateSuggestions (toLower titleCaser : Str → Str) (rs : Nat → Nat) (fuel : Nat)
    (name : Str) (count : Int) (adjectives nouns : List Str) (alliteration : Bool)
    (maxLength : Int) : Except Fault (List Str) :=
  match generateSuggestionsRun toLower titleCaser rs fuel name count adjectives nouns
      alliteration maxLength with
  | .error e => .error e
  | .ok out => .ok out.state.suggestions

/-- ASCII lower-casing of one byte. -/
def lowerByte (b : Nat) : Nat := if 65 ≤ b ∧ b ≤ 90 then b + 32 else b

/-- ASCII upper-casing of one byte. -/
def upperByte (b : Nat) : Nat := if 97 ≤ b ∧ b ≤ 122 then b - 32 else b

/-- Modelled from the spec: `strings.ToLower` of the Go standard library, which
is not part of the repository, on ASCII text: every byte `A`-`Z` becomes
`a`-`z`, every other byte is kept (the library also keeps the bytes of
characters that have no case). -/
def asciiToLower (s : Str) : Str := s.map lowerByte

/-- Modelled from the spec: the title caser `cases.Title(language.English)` of
`golang.org/x/text`, which is not part of the repository, on a lowercase ASCII
word ("capitalization of the word's first letter only"): a first byte `a`-`z`
becomes `A`-`Z`, every other byte is kept (the library also keeps the bytes of
characters that have no case). -/
def asciiTitle : Str → Str
  | [] => []
  | b :: rest => upperByte b :: rest

/-- The word list in effect in the loops of a call: the filtered copy under
alliteration (lines 89-92), the list itself otherwise. -/
def inEffect (toLower : Str → Str) (name : Str) (alliteration : Bool) (words : List Str) :
    List Str :=
  if alliteration then
    match (toLower name)[0]? with
    | some initial => filterByInitialLetter words initial
    | none => []
  else words

/-- The adjectives of the spec's alliteration scenario. -/
def demoAdjectives : List Str := [str "happy", str "hungry"]

/-- The nouns of the spec's alliteration scenario. -/
def demoNouns : List Str := [str "hero", str "hawk"]

/-- A sample random stream. -/
def demoStream : Nat → Nat := fun n => n * n + 1

/-- What the call of the spec's alliteration scenario (name "H", count 3,
`maxLength` 20) leaves behind on `demoStream`. -/
def demoOutcome : Outcome :=
  { state :=
      { suggestions := [str "HHungry", str "HHawkHawk", str "HHungryHungry"],
        combos := [[str "Hungry"], [str "Hawk", str "Hawk"], [str "Hungry", str "Hungry"]],
        usedCombinations := [str "Hungry", str "Hawk Hawk", str "Hungry Hungry"],
        cur := 15 },
    adjectives := [str "happy", str "hungry"],
    nouns := [str "hawk", str "hero"],
    callerAdjectives := demoAdjectives,
    callerNouns := demoNouns }

/-- The number of bytes of the UTF-8 encoded character whose first byte is
`b`. -/
def utf8Width (b : Nat) : Nat :=
  if b < 128 then 1 else if b < 224 then 2 else if b < 240 then 3 else 4

/-- The first letter of a string: the bytes of its first UTF-8 encoded
character. -/
def firstLetter (s : Str) : Str := s.take (utf8Width (s.headD 0))

/-- The call `strings.HasSuffix(s, suffix)`:
`len(s) >= len(suffix) && s[len(s)-len(suffix):] == suffix`. -/
def HasSuffix (s suffix : Str) : Bool :=
  decide (suffix.length ≤ s.length) && decide (s.drop (s.length - suffix.length) = suffix)

/-- The scanning loop of `loadWords` (lines 36-46) over the lines still to be
read, with the two slices built so far. -/
def loadWordsLoop (toLower : Str → Str) : List Str → List Str × List Str → List Str × List Str
  | [], acc => acc
  | line :: rest, (adjectives, nouns) =>
    let word := toLower line
    if 3 < word.length ∧ word.length < 12 then
      if HasSuffix word (str "y") || HasSuffix word (str "ous") then
        loadWordsLoop toLower rest (adjectives ++ [word], nouns)
      else if HasSuffix word (str "er") || HasSuffix word (str "ion")
          || HasSuffix word (str "ist") then
        loadWordsLoop toLower rest (adjectives, nouns ++ [word])
      else loadWordsLoop toLower rest (adjectives, nouns)
    else loadWordsLoop toLower rest (adjectives, nouns)

/-- The classification step of `loadWords` on the lines of the dictionary
file: the adjectives and the nouns it returns. -/
def loadWords (toLower : Str → Str) (lines : List Str) : List Str × List Str :=
  loadWordsLoop toLower lines ([], [])

/-- The spec's rule for an adjective candidate: length in (3, 12) exclusive
and ending in "y" or "ous". -/
def specAdjective (w : Str) : Bool :=
  decide (3 < w.length ∧ w.length < 12 ∧ (str "y" <:+ w ∨ str "ous" <:+ w))

/-- The spec's rule for a noun candidate: length in (3, 12) exclusive, not an
adjective candidate, and ending in "er", "ion" or "ist". -/
def specNoun (w : Str) : Bool :=
  decide (3 < w.length ∧ w.length < 12 ∧ specAdjective w = false ∧
    (str "er" <:+ w ∨ str "ion" <:+ w ∨ str "ist" <:+ w))

/-- What the call for name "H", `count` 1, `maxLength` 20 without alliteration
leaves behind on the draws 0, 0, 0, ... -/
def reorderedOutcome : Outcome :=
  { state :=
      { suggestions := [str "HHungry"],
        combos := [[str "Hungry"]],
        usedCombinations := [str "Hungry"],
        cur := 5 },
    adjectives := [str "hungry", str "happy"],
    nouns := [str "hawk", str "hero"],
    callerAdjectives := [str "hungry", str "happy"],
    callerNouns := [str "hawk", str "hero"] }

/-- An ASCII uppercase byte, `A`-`Z`. -/
def isUpperByte (b : Nat) : Bool := decide (65 ≤ b ∧ b ≤ 90)

/-- A capitalized word: an ASCII uppercase byte followed by bytes none of which
is an ASCII uppercase byte (what title-casing makes of a lowercase word). -/
def capitalized : Str → Bool
  | [] => false
  | b :: rest => isUpperByte b && rest.all (fun c => !isUpperByte c)

/-- The filter as the claims word it: the words whose first letter is the first
letter of the lowercased name. -/
def specFilterByLetter (toLower : Str → Str) (name : Str) (words : List Str) : List Str :=
  words.filter fun word => decide (word ≠ [] ∧ firstLetter word = firstLetter (toLower name))

/-- A candidate at the end of its inner loop, built from the words "Hungry"
and "Hawk" in the spec's alliteration scenario. -/
def demoCandidate : Candidate :=
  { suggestion := str "HHungryHawk", usedWords := [str "Hungry", str "Hawk"],
    length := 11, attempts := 2, wordCount := 2, cur := 20 }

/-! ## Invariants -/

/-- What holds of a candidate throughout the inner loop. -/
structure CandInv (titleCaser : Str → Str) (name : Str) (adjectives nouns : List Str)
    (wordLimit : Nat) (c : Candidate) : Prop where
  sugg : c.suggestion = name ++ c.usedWords.flatten
  len : c.length = c.suggestion.length
  count : c.wordCount = c.usedWords.length
  limit : c.wordCount ≤ wordLimit
  words : ∀ x ∈ c.usedWords, ∃ w, (w ∈ adjectives ∨ w ∈ nouns) ∧ x = titleCaser w

/-- What holds of the outer loop's variables throughout a call. -/
structure GenInv (titleCaser : Str → Str) (name : Str) (count : Int)
    (adjectives nouns : List Str) (maxLength : Int) (st : GenState) : Prop where
  sugg : st.suggestions = st.combos.map (fun ws => name ++ ws.flatten)
  keys : st.usedCombinations = st.combos.map normalizeCombination
  nodup : st.usedCombinations.Nodup
  fits : ∀ s ∈ st.suggestions, (s.length : Int) ≤ maxLength
  bound : (st.suggestions.length : Int) ≤ max count 0
  words : ∀ ws ∈ st.combos, ws.length ≤ 5 ∧
    ∀ x ∈ ws, ∃ w, (w ∈ adjectives ∨ w ∈ nouns) ∧ x = titleCaser w

/-! ## The shuffle keeps the words -/

theorem swap_length (xs : List Str) (i j : Nat) : (swap xs i j).length = xs.length := by
  simp [swap]

theorem mem_of_mem_swap {xs : List Str} {i j : Nat} (hi : i < xs.length) (hj : j < xs.length)
    {x : Str} (hx : x ∈ swap xs i j) : x ∈ xs := by
  unfold swap at hx
  rcases List.mem_or_eq_of_mem_set hx with h | h
  · rcases List.mem_or_eq_of_mem_set h with h | h
    · exact h
    · rw [h, List.getD_eq_getElem _ _ hj]
      exact List.getElem_mem hj
  · rw [h, List.getD_eq_getElem _ _ hi]
    exact List.getElem_mem hi

theorem shuffleLoop_spec (rs : Nat → Nat) :
    ∀ (i : Nat) (xs : List Str) (cur : Nat), (i < xs.length ∨ i = 0) →
      (shuffleLoop rs i xs cur).1.length = xs.length ∧
      ∀ x ∈ (shuffleLoop rs i xs cur).1, x ∈ xs := by
  intro i
  induction i with
  | zero => intro xs cur _; simp [shuffleLoop]
  | succ i ih =>
    intro xs cur h
    have hi : i + 1 < xs.length := by omega
    have hj : Intn rs cur (i + 2) < xs.length := by
      have : Intn rs cur (i + 2) < i + 2 := Nat.mod_lt _ (by omega)
      omega
    have hlen := swap_length xs (i + 1) (Intn rs cur (i + 2))
    obtain ⟨h1, h2⟩ := ih (swap xs (i + 1) (Intn rs cur (i + 2))) (cur + 1)
      (by left; omega)
    refine ⟨?_, ?_⟩
    · simp only [shuffleLoop]; omega
    · intro x hx
      simp only [shuffleLoop] at hx
      exact mem_of_mem_swap hi hj (h2 x hx)

theorem Shuffle_length (rs : Nat → Nat) (xs : List Str) (cur : Nat) :
    (Shuffle rs xs cur).1.length = xs.length :=
  (shuffleLoop_spec rs (xs.length - 1) xs cur (by omega)).1

theorem mem_of_mem_Shuffle (rs : Nat → Nat) (xs : List Str) (cur : Nat) {x : Str}
    (hx : x ∈ (Shuffle rs xs cur).1) : x ∈ xs :=
  (shuffleLoop_spec rs (xs.length - 1) xs cur (by omega)).2 x hx

/-! ## One pick -/

theorem index_ok_mem {xs : List Str} {i : Nat} {w : Str} (h : index xs i = .ok w) : w ∈ xs := by
  unfold index at h
  split at h
  · rename_i v hv
    cases h
    exact List.getElem?_mem hv
  · cases h

theorem pickWord_mem {adjectives nouns : List Str} {rs : Nat → Nat} {cur : Nat}
    {word : Str} {cur1 : Nat} (h : pickWord adjectives nouns rs cur = .ok (word, cur1)) :
    word = [] ∨ word ∈ adjectives ∨ word ∈ nouns := by
  unfold pickWord at h
  split_ifs at h
  · split at h
    · rename_i w hw; cases h; exact Or.inr (Or.inl (index_ok_mem hw))
    · cases h
  · split at h
    · rename_i w hw; cases h; exact Or.inr (Or.inr (index_ok_mem hw))
    · cases h
  · cases h; exact Or.inl rfl
  · split at h
    · rename_i w hw; cases h; exact Or.inr (Or.inr (index_ok_mem hw))
    · cases h
  · cases h; exact Or.inl rfl

/-! ## Invariants of the inner loop -/

theorem newCandidate_inv (titleCaser : Str → Str) (name : Str) (adjectives nouns : List Str)
    (wordLimit cur : Nat) :
    CandInv titleCaser name adjectives nouns wordLimit (newCandidate name cur) := by
  constructor <;> simp [newCandidate]

theorem appendWord_inv {titleCaser : Str → Str} {name : Str} {adjectives nouns : List Str}
    {wordLimit : Nat} {c : Candidate} (maxLength : Int) {word : Str}
    (hw : word = [] ∨ word ∈ adjectives ∨ word ∈ nouns) (hlt : c.wordCount < wordLimit)
    (h : CandInv titleCaser name adjectives nouns wordLimit c) :
    CandInv titleCaser name adjectives nouns wordLimit
      (appendWord titleCaser maxLength c word) := by
  unfold appendWord
  by_cases h1 : word ≠ [] ∧ contains c.usedWords word = false
  · by_cases h2 : (c.length : Int) + ((titleCaser word).length : Int) ≤ maxLength
    · have hmem : word ∈ adjectives ∨ word ∈ nouns := by
        rcases hw with hw | hw
        · exact absurd hw h1.1
        · exact hw
      rw [if_pos h1]
      dsimp only
      rw [if_pos h2]
      constructor
      · simp [h.sugg]
      · simp [h.len]
      · simp [h.count]
      · simp only; omega
      · intro x hx
        simp only [List.mem_append, List.mem_singleton] at hx
        rcases hx with hx | hx
        · exact h.words x hx
        · exact ⟨word, hmem, hx⟩
    · rw [if_pos h1]
      dsimp only
      rw [if_neg h2]
      exact h
  · rw [if_neg h1]
    exact h

theorem pickLoop_inv {titleCaser : Str → Str} {name : Str} {adjectives nouns : List Str}
    {maxLength : Int} {wordLimit : Nat} {rs : Nat → Nat} :
    ∀ (fuel : Nat) (c c1 : Candidate),
      pickLoop titleCaser adjectives nouns maxLength wordLimit rs fuel c = .ok c1 →
      CandInv titleCaser name adjectives nouns wordLimit c →
      CandInv titleCaser name adjectives nouns wordLimit c1 := by
  intro fuel
  induction fuel with
  | zero =>
    intro c c1 h hc
    unfold pickLoop at h
    split_ifs at h
    cases h; exact hc
  | succ fuel ih =>
    intro c c1 h hc
    unfold pickLoop at h
    split_ifs at h with hg
    · split at h
      · cases h
      · rename_i word cur hp
        have hc1 : CandInv titleCaser name adjectives nouns wordLimit
            (appendWord titleCaser maxLength { c with attempts := c.attempts + 1, cur := cur }
              word) :=
          appendWord_inv maxLength (pickWord_mem hp) hg.2.2
            ⟨hc.sugg, hc.len, hc.count, hc.limit, hc.words⟩
        simp only at h
        split_ifs at h
        · cases h; exact hc1
        · exact ih _ _ h hc1
    · cases h; exact hc

/-! ## Invariants of the outer loop -/

theorem GenInv.mono {titleCaser : Str → Str} {name : Str} {count : Int}
    {adjectives nouns adjectives1 nouns1 : List Str} {maxLength : Int} {st : GenState}
    (ha : ∀ x ∈ adjectives, x ∈ adjectives1) (hn : ∀ x ∈ nouns, x ∈ nouns1)
    (h : GenInv titleCaser name count adjectives nouns maxLength st) :
    GenInv titleCaser name count adjectives1 nouns1 maxLength st := by
  refine ⟨h.sugg, h.keys, h.nodup, h.fits, h.bound, ?_⟩
  intro ws hws
  refine ⟨(h.words ws hws).1, ?_⟩
  intro x hx
  obtain ⟨w, hw, hxw⟩ := (h.words ws hws).2 x hx
  rcases hw with hw | hw
  · exact ⟨w, Or.inl (ha w hw), hxw⟩
  · exact ⟨w, Or.inr (hn w hw), hxw⟩

theorem initial_inv (titleCaser : Str → Str) (name : Str) (count : Int)
    (adjectives nouns : List Str) (maxLength : Int) (cur : Nat) :
    GenInv titleCaser name count adjectives nouns maxLength
      { suggestions := [], combos := [], usedCombinations := [], cur := cur } := by
  constructor <;> simp

theorem accept_inv {titleCaser : Str → Str} {name : Str} {count : Int}
    {adjectives nouns : List Str} {maxLength : Int} {st : GenState} {c : Candidate}
    {wordLimit : Nat} (hlim : wordLimit ≤ 5)
    (hlt : (st.suggestions.length : Int) < count)
    (hc : CandInv titleCaser name adjectives nouns wordLimit c)
    (h : GenInv titleCaser name count adjectives nouns maxLength st) :
    GenInv titleCaser name count adjectives nouns maxLength (accept maxLength st c) := by
  unfold accept
  dsimp only
  split_ifs with hacc
  · obtain ⟨hfit, hnew⟩ := hacc
    have hset : mapSet st.usedCombinations (normalizeCombination c.usedWords) =
        st.usedCombinations ++ [normalizeCombination c.usedWords] := by
      unfold mapSet
      rw [if_neg hnew]
    constructor
    · simp [h.sugg, hc.sugg]
    · show mapSet st.usedCombinations (normalizeCombination c.usedWords) =
        List.map normalizeCombination (st.combos ++ [c.usedWords])
      rw [hset, h.keys, List.map_append]
      rfl
    · simp only [hset]
      rw [List.nodup_append]
      refine ⟨h.nodup, List.nodup_singleton _, ?_⟩
      intro a ha hb
      simp only [List.mem_singleton] at hb
      exact hnew (hb ▸ ha)
    · intro s hs
      simp only [List.mem_append, List.mem_singleton] at hs
      rcases hs with hs | hs
      · exact h.fits s hs
      · rw [hs]; exact hfit
    · simp only [List.length_append, List.length_singleton, Nat.cast_add, Nat.cast_one]
      have : count ≤ max count 0 := le_max_left _ _
      omega
    · intro ws hws
      simp only [List.mem_append, List.mem_singleton] at hws
      rcases hws with hws | hws
      · exact h.words ws hws
      · rw [hws]
        refine ⟨?_, hc.words⟩
        have h1 := hc.count
        have h2 := hc.limit
        omega
  · exact ⟨h.sugg, h.keys, h.nodup, h.fits, h.bound, h.words⟩

theorem outerLoop_inv {titleCaser : Str → Str} {name : Str} {count : Int}
    {adjectives nouns : List Str} {maxLength : Int} {rs : Nat → Nat} :
    ∀ (fuel : Nat) (st st1 : GenState),
      outerLoop titleCaser name count adjectives nouns maxLength rs fuel st = .ok st1 →
      GenInv titleCaser name count adjectives nouns maxLength st →
      GenInv titleCaser name count adjectives nouns maxLength st1 := by
  intro fuel
  induction fuel with
  | zero =>
    intro st st1 h hst
    unfold outerLoop at h
    split_ifs at h
    cases h; exact hst
  | succ fuel ih =>
    intro st st1 h hst
    unfold outerLoop at h
    split_ifs at h with hg
    · dsimp only at h
      split at h
      · cases h
      · rename_i c hp
        have hlim : Intn rs st.cur 5 + 1 ≤ 5 := by
          have : Intn rs st.cur 5 < 5 := Nat.mod_lt _ (by omega)
          omega
        have hc := pickLoop_inv maxAttempts _ _ hp
          (newCandidate_inv titleCaser name adjectives nouns (Intn rs st.cur 5 + 1) (st.cur + 1))
        have hst1 := accept_inv hlim hg hc hst
        split_ifs at h
        · cases h; exact hst1
        · exact ih _ _ h hst1
    · cases h; exact hst

theorem generateFrom_inv {titleCaser : Str → Str} {rs : Nat → Nat} {fuel : Nat} {name : Str}
    {count : Int} {adjectives nouns : List Str} {maxLength : Int}
    {st : GenState} {sadjectives snouns : List Str}
    (h : generateFrom titleCaser rs fuel name count adjectives nouns maxLength =
      .ok (st, sadjectives, snouns)) :
    GenInv titleCaser name count adjectives nouns maxLength st ∧
    (∀ x ∈ sadjectives, x ∈ adjectives) ∧ (∀ x ∈ snouns, x ∈ nouns) ∧
    sadjectives.length = adjectives.length ∧ snouns.length = nouns.length := by
  unfold generateFrom at h
  dsimp only at h
  split at h
  · cases h
  · rename_i st0 hl
    cases h
    have ha : ∀ x ∈ (Shuffle rs adjectives 0).1, x ∈ adjectives :=
      fun x hx => mem_of_mem_Shuffle rs adjectives 0 hx
    have hn : ∀ x ∈ (Shuffle rs nouns (Shuffle rs adjectives 0).2).1, x ∈ nouns :=
      fun x hx => mem_of_mem_Shuffle rs nouns _ hx
    exact ⟨GenInv.mono ha hn (outerLoop_inv fuel _ _ hl (initial_inv _ _ _ _ _ _ _)),
      ha, hn, Shuffle_length _ _ _, Shuffle_length _ _ _⟩

/-! ## The whole call -/

theorem run_inv {toLower titleCaser : Str → Str} {rs : Nat → Nat} {fuel : Nat} {name : Str}
    {count : Int} {adjectives nouns : List Str} {alliteration : Bool} {maxLength : Int}
    {out : Outcome}
    (h : generateSuggestionsRun toLower titleCaser rs fuel name count adjectives nouns
      alliteration maxLength = .ok out) :
    GenInv titleCaser name count (inEffect toLower name alliteration adjectives)
      (inEffect toLower name alliteration nouns) maxLength out.state := by
  unfold generateSuggestionsRun at h
  cases alliteration with
  | true =>
    simp only [if_true] at h
    split at h
    · cases h
    · rename_i initial hini
      have e1 : inEffect toLower name true adjectives = filterByInitialLetter adjectives initial := by
        simp [inEffect, hini]
      have e2 : inEffect toLower name true nouns = filterByInitialLetter nouns initial := by
        simp [inEffect, hini]
      rw [e1, e2]
      split_ifs at h
      · cases h
        exact initial_inv _ _ _ _ _ _ _
      · split at h
        · cases h
        · rename_i st sa sn hg
          cases h
          exact (generateFrom_inv hg).1
  | false =>
    simp only [Bool.false_eq_true, if_false] at h
    split at h
    · cases h
    · rename_i st sa sn hg
      cases h
      simpa [inEffect] using (generateFrom_inv hg).1

theorem run_of_generateSuggestions {toLower titleCaser : Str → Str} {rs : Nat → Nat}
    {fuel : Nat} {name : Str} {count : Int} {adjectives nouns : List Str}
    {alliteration : Bool} {maxLength : Int} {r : List Str}
    (h : generateSuggestions toLower titleCaser rs fuel name count adjectives nouns
      alliteration maxLength = .ok r) :
    ∃ out, generateSuggestionsRun toLower titleCaser rs fuel name count adjectives nouns
      alliteration maxLength = .ok out ∧ out.state.suggestions = r := by
  unfold generateSuggestions at h
  split at h
  · cases h
  · rename_i out ho
    cases h
    exact ⟨out, ho, rfl⟩

theorem ne_of_nodup_index {α : Type} {l : List α} (hl : l.Nodup) {i j : Nat} {a b : α}
    (hij : i ≠ j) (hi : l[i]? = some a) (hj : l[j]? = some b) : a ≠ b := by
  intro hab
  obtain ⟨hi1, hi2⟩ := List.getElem?_eq_some.mp hi
  obtain ⟨hj1, hj2⟩ := List.getElem?_eq_some.mp hj
  exact hij ((hl.getElem_inj_iff).mp (by rw [hi2, hj2, hab]))

/-! ## The inner loop always returns -/

theorem index_ok (xs : List Str) (r : Nat) (h : 0 < xs.length) :
    ∃ w, index xs (r % xs.length) = .ok w := by
  have hlt : r % xs.length < xs.length := Nat.mod_lt _ h
  refine ⟨xs[r % xs.length], ?_⟩
  unfold index
  rw [List.getElem?_eq_getElem hlt]

theorem pickWord_ok (adjectives nouns : List Str) (rs : Nat → Nat) (cur : Nat) :
    ∃ p, pickWord adjectives nouns rs cur = .ok p := by
  unfold pickWord
  split_ifs with h1 h2 h3 h4
  · obtain ⟨w, hw⟩ := index_ok adjectives (rs (cur + 1)) h1
    unfold Intn
    rw [hw]
    exact ⟨_, rfl⟩
  · obtain ⟨w, hw⟩ := index_ok nouns (rs (cur + 1)) h3
    unfold Intn
    rw [hw]
    exact ⟨_, rfl⟩
  · exact ⟨_, rfl⟩
  · obtain ⟨w, hw⟩ := index_ok nouns (rs cur) h4
    unfold Intn
    rw [hw]
    exact ⟨_, rfl⟩
  · exact ⟨_, rfl⟩

theorem appendWord_attempts (titleCaser : Str → Str) (maxLength : Int) (c : Candidate)
    (word : Str) : (appendWord titleCaser maxLength c word).attempts = c.attempts := by
  unfold appendWord
  split_ifs
  · dsimp only
    split_ifs <;> rfl
  · rfl

/-- With at least `maxAttempts - attempts` units of fuel the inner loop
returns a candidate: it neither runs out of fuel nor indexes out of range. -/
theorem pickLoop_ok (titleCaser : Str → Str) (adjectives nouns : List Str) (maxLength : Int)
    (wordLimit : Nat) (rs : Nat → Nat) :
    ∀ (fuel : Nat) (c : Candidate), maxAttempts ≤ c.attempts + fuel →
      ∃ c1, pickLoop titleCaser adjectives nouns maxLength wordLimit rs fuel c = .ok c1 := by
  intro fuel
  induction fuel with
  | zero =>
    intro c hc
    unfold pickLoop
    rw [if_neg (by intro hg; have := hg.2.1; omega)]
    exact ⟨_, rfl⟩
  | succ fuel ih =>
    intro c hc
    unfold pickLoop
    split_ifs with hg
    · obtain ⟨⟨word, cur⟩, hp⟩ := pickWord_ok adjectives nouns rs c.cur
      rw [hp]
      dsimp only
      split_ifs
      · exact ⟨_, rfl⟩
      · apply ih
        rw [appendWord_attempts]
        dsimp only
        omega
    · exact ⟨_, rfl⟩

theorem outerLoop_done (titleCaser : Str → Str) (name : Str) {count : Int}
    (adjectives nouns : List Str) (maxLength : Int) (rs : Nat → Nat) (fuel : Nat)
    {st : GenState} (h : ¬ ((st.suggestions.length : Int) < count)) :
    outerLoop titleCaser name count adjectives nouns maxLength rs fuel st = .ok st := by
  cases fuel with
  | zero => unfold outerLoop; rw [if_neg h]
  | succ fuel => unfold outerLoop; rw [if_neg h]

/-! ## Runs in which no word can be appended -/

theorem normalizeCombination_nil : normalizeCombination [] = [] := rfl

theorem pickLoop_no_room (titleCaser : Str → Str) (adjectives nouns : List Str)
    {maxLength : Int} (wordLimit : Nat) (rs : Nat → Nat) {name : Str}
    (hroom : maxLength ≤ (name.length : Int)) (fuel cur : Nat) :
    pickLoop titleCaser adjectives nouns maxLength wordLimit rs fuel (newCandidate name cur)
      = .ok (newCandidate name cur) := by
  have hg : ¬ (((newCandidate name cur).length : Int) < maxLength ∧
      (newCandidate name cur).attempts < maxAttempts ∧
      (newCandidate name cur).wordCount < wordLimit) := by
    intro hg
    have := hg.1
    simp only [newCandidate] at this
    omega
  cases fuel with
  | zero => unfold pickLoop; rw [if_neg hg]
  | succ fuel => unfold pickLoop; rw [if_neg hg]

theorem accept_skip {maxLength : Int} {st : GenState} {name : Str} (cur : Nat)
    (hkey : [] ∈ st.usedCombinations ∨ maxLength < (name.length : Int)) :
    accept maxLength st (newCandidate name cur) = { st with cur := cur } := by
  have hg : ¬ ((((newCandidate name cur).suggestion.length : Nat) : Int) ≤ maxLength ∧
      normalizeCombination (newCandidate name cur).usedWords ∉ st.usedCombinations) := by
    intro hg
    rcases hkey with hk | hk
    · exact hg.2 (by simpa [newCandidate, normalizeCombination_nil] using hk)
    · have := hg.1
      simp only [newCandidate] at this
      omega
  unfold accept
  dsimp only
  rw [if_neg hg]
  rfl

theorem accept_bare {maxLength : Int} {name : Str} (cur0 cur : Nat)
    (hfit : (name.length : Int) ≤ maxLength) :
    accept maxLength { suggestions := [], combos := [], usedCombinations := [], cur := cur0 }
        (newCandidate name cur)
      = { suggestions := [name], combos := [[]], usedCombinations := [[]], cur := cur } := by
  unfold accept
  dsimp only
  rw [if_pos ⟨by simpa [newCandidate] using hfit, by simp⟩]
  simp [newCandidate, normalizeCombination_nil, mapSet]

/-- Once no word fits and the empty combination is recorded (or the name alone
is too long), an iteration changes nothing but the cursor: while the two loop
exits stay closed the outer loop runs out of any fuel. -/
theorem outerLoop_stuck (titleCaser : Str → Str) {name : Str} {count : Int}
    {adjectives nouns : List Str} {maxLength : Int} (rs : Nat → Nat)
    (hroom : maxLength ≤ (name.length : Int)) :
    ∀ (fuel : Nat) (st : GenState),
      ([] ∈ st.usedCombinations ∨ maxLength < (name.length : Int)) →
      (st.suggestions.length : Int) < count →
      st.usedCombinations.length < adjectives.length * nouns.length →
      outerLoop titleCaser name count adjectives nouns maxLength rs fuel st
        = .error .outOfFuel := by
  intro fuel
  induction fuel with
  | zero =>
    intro st _ hcount _
    unfold outerLoop
    rw [if_pos hcount]
  | succ fuel ih =>
    intro st hkey hcount hprod
    unfold outerLoop
    rw [if_pos hcount]
    dsimp only
    rw [pickLoop_no_room titleCaser adjectives nouns _ rs hroom]
    dsimp only
    rw [accept_skip _ hkey]
    rw [if_neg (by simpa using hprod)]
    exact ih _ hkey hcount hprod

/-- In the same situation, whatever the outer loop returns holds the
suggestions it started the iteration with. -/
theorem outerLoop_pinned (titleCaser : Str → Str) {name : Str} {count : Int}
    {adjectives nouns : List Str} {maxLength : Int} (rs : Nat → Nat)
    (hroom : maxLength ≤ (name.length : Int)) :
    ∀ (fuel : Nat) (st st1 : GenState),
      ([] ∈ st.usedCombinations ∨ maxLength < (name.length : Int)) →
      outerLoop titleCaser name count adjectives nouns maxLength rs fuel st = .ok st1 →
      st1.suggestions = st.suggestions := by
  intro fuel
  induction fuel with
  | zero =>
    intro st st1 _ h
    unfold outerLoop at h
    split_ifs at h
    cases h; rfl
  | succ fuel ih =>
    intro st st1 hkey h
    unfold outerLoop at h
    split_ifs at h with hg
    · dsimp only at h
      rw [pickLoop_no_room titleCaser adjectives nouns _ rs hroom] at h
      dsimp only at h
      rw [accept_skip _ hkey] at h
      split_ifs at h
      · cases h; rfl
      · exact ih { st with cur := st.cur + 1 } st1 hkey h
    · cases h; rfl

/-- Without alliteration the call is the two shuffles and the outer loop. -/
theorem generateSuggestions_plain (toLower titleCaser : Str → Str) (rs : Nat → Nat)
    (fuel : Nat) (name : Str) (count : Int) (adjectives nouns : List Str) (maxLength : Int) :
    generateSuggestions toLower titleCaser rs fuel name count adjectives nouns false maxLength
      = match outerLoop titleCaser name count (Shuffle rs adjectives 0).1
            (Shuffle rs nouns (Shuffle rs adjectives 0).2).1 maxLength rs fuel
            { suggestions := [], combos := [], usedCombinations := [],
              cur := (Shuffle rs nouns (Shuffle rs adjectives 0).2).2 } with
        | .error e => .error e
        | .ok st => .ok st.suggestions := by
  unfold generateSuggestions generateSuggestionsRun generateFrom
  simp only [Bool.false_eq_true, if_false]
  cases outerLoop titleCaser name count (Shuffle rs adjectives 0).1
      (Shuffle rs nouns (Shuffle rs adjectives 0).2).1 maxLength rs fuel
      { suggestions := [], combos := [], usedCombinations := [],
        cur := (Shuffle rs nouns (Shuffle rs adjectives 0).2).2 } <;> rfl

/-- The first iteration from the empty state when the name fills `maxLength`
exactly: the bare name is accepted under the empty key, then the exhaustion
check decides. -/
theorem outerLoop_bare_first (titleCaser : Str → Str) {name : Str} {count : Int}
    (adjectives nouns : List Str) {maxLength : Int} (rs : Nat → Nat)
    (hlen : (name.length : Int) = maxLength) (hcount : 0 < count) (fuel cur : Nat) :
    outerLoop titleCaser name count adjectives nouns maxLength rs (fuel + 1)
        { suggestions := [], combos := [], usedCombinations := [], cur := cur }
      = if adjectives.length * nouns.length ≤ 1 then
          .ok { suggestions := [name], combos := [[]], usedCombinations := [[]],
                cur := cur + 1 }
        else
          outerLoop titleCaser name count adjectives nouns maxLength rs fuel
            { suggestions := [name], combos := [[]], usedCombinations := [[]],
              cur := cur + 1 } := by
  conv_lhs => unfold outerLoop
  rw [if_pos (by simpa using hcount)]
  dsimp only
  rw [pickLoop_no_room titleCaser adjectives nouns _ rs (le_of_eq hlen.symm)]
  dsimp only
  rw [accept_bare _ _ (le_of_eq hlen)]
  rfl

theorem filterByInitialLetter_mem {words : List Str} {initial : Nat} {w : Str}
    (h : w ∈ filterByInitialLetter words initial) : w ∈ words ∧ w.head? = some initial := by
  unfold filterByInitialLetter at h
  rw [List.mem_filter] at h
  refine ⟨h.1, ?_⟩
  have := h.2
  simp only [Bool.and_eq_true, decide_eq_true_eq] at this
  exact this.2

theorem inEffect_mem {toLower : Str → Str} {name : Str} {words : List Str} {w : Str}
    (h : w ∈ inEffect toLower name true words) :
    w ∈ words ∧ w.head? = (toLower name).head? := by
  unfold inEffect at h
  simp only [if_true] at h
  split at h
  · rename_i initial hini
    have := filterByInitialLetter_mem h
    refine ⟨this.1, ?_⟩
    rw [this.2, List.head?_eq_getElem?, hini]
  · simp at h

/-! ## The claims -/

/-- C1: every string in the result of `generateSuggestions` has byte length at
most `maxLength`, for every name, count, word lists, alliteration flag,
`maxLength` and random stream. -/
theorem suggestions_length_le_maxLength (toLower titleCaser : Str → Str) (rs : Nat → Nat)
    (fuel : Nat) (name : Str) (count : Int) (adjectives nouns : List Str)
    (alliteration : Bool) (maxLength : Int) (r : List Str)
    (h : generateSuggestions toLower titleCaser rs fuel name count adjectives nouns
      alliteration maxLength = .ok r) :
    ∀ s ∈ r, (s.length : Int) ≤ maxLength := by
  obtain ⟨out, ho, hr⟩ := run_of_generateSuggestions h
  rw [← hr]
  exact (run_inv ho).fits

/-- A run of the spec's alliteration scenario that returns three suggestions,
each within the 20 bytes allowed. -/
theorem suggestions_length_le_maxLength_witness :
    generateSuggestions asciiToLower asciiTitle demoStream 5 (str "H") 3 demoAdjectives
        demoNouns true 20
      = .ok [str "HHungry", str "HHawkHawk", str "HHungryHungry"] ∧
    ∀ s ∈ [str "HHungry", str "HHawkHawk", str "HHungryHungry"], ((s.length : Nat) : Int) ≤ 20 :=
  ⟨by decide,
   suggestions_length_le_maxLength asciiToLower asciiTitle demoStream 5 (str "H") 3
     demoAdjectives demoNouns true 20 _ (by decide)⟩

/-- C2: in one call, the suggestions at two different positions of the result
were built from appended-word lists (`combos`, position by position:
`suggestions[i] = name ++ concat combos[i]`) whose normalized combination keys
differ. -/
theorem normalized_keys_pairwise_distinct (toLower titleCaser : Str → Str) (rs : Nat → Nat)
    (fuel : Nat) (name : Str) (count : Int) (adjectives nouns : List Str)
    (alliteration : Bool) (maxLength : Int) (out : Outcome)
    (h : generateSuggestionsRun toLower titleCaser rs fuel name count adjectives nouns
      alliteration maxLength = .ok out) :
    out.state.suggestions = out.state.combos.map (fun ws => name ++ ws.flatten) ∧
    ∀ (i j : Nat) (a b : List Str), i ≠ j →
      out.state.combos[i]? = some a → out.state.combos[j]? = some b →
      normalizeCombination a ≠ normalizeCombination b := by
  have inv := run_inv h
  refine ⟨inv.sugg, ?_⟩
  intro i j a b hij hi hj
  have hnd : (out.state.combos.map normalizeCombination).Nodup := inv.keys ▸ inv.nodup
  exact ne_of_nodup_index hnd hij (by simp [hi]) (by simp [hj])

/-- A run of the spec's alliteration scenario: three suggestions, whose
appended-word lists have three different keys. -/
theorem normalized_keys_pairwise_distinct_witness :
    generateSuggestionsRun asciiToLower asciiTitle demoStream 5 (str "H") 3 demoAdjectives
        demoNouns true 20 = .ok demoOutcome ∧
    (demoOutcome.state.suggestions =
        demoOutcome.state.combos.map (fun ws => str "H" ++ ws.flatten) ∧
      ∀ (i j : Nat) (a b : List Str), i ≠ j →
        demoOutcome.state.combos[i]? = some a → demoOutcome.state.combos[j]? = some b →
        normalizeCombination a ≠ normalizeCombination b) :=
  ⟨by decide,
   normalized_keys_pairwise_distinct asciiToLower asciiTitle demoStream 5 (str "H") 3
     demoAdjectives demoNouns true 20 demoOutcome (by decide)⟩

/-- C3 (refuted on the code): `contains` is asked for the lowercase word while
`usedWords` holds title-cased words, so a word can be appended twice. With
name "H", adjectives ["happy"], nouns ["hero"], alliteration on, `maxLength`
20 and the draws 1, 0, 0, 0, 0, ... (a word limit of 2, then twice the
adjective "happy"), the call returns "HHappyHappy", built from the appended
words ["Happy", "Happy"]. -/
theorem appended_word_repeated :
    generateSuggestionsRun asciiToLower asciiTitle (fun n => if n = 0 then 1 else 0) 5
        (str "H") 1 [str "happy"] [str "hero"] true 20
      = .ok { state :=
                { suggestions := [str "HHappyHappy"],
                  combos := [[str "Happy", str "Happy"]],
                  usedCombinations := [str "Happy Happy"],
                  cur := 5 },
              adjectives := [str "happy"],
              nouns := [str "hero"],
              callerAdjectives := [str "happy"],
              callerNouns := [str "hero"] } := by
  decide

/-- C4 (refuted on the code): a call that never returns. With name "Max",
`maxLength` 3, `count` 20, adjectives ["happy", "hungry"], nouns ["hero"] and
no alliteration, only the bare name can be produced (one combination, fewer
than `count`); after it is accepted the exhaustion check `1 >= 2 * 1` fails on
every iteration, so for every random stream and every amount of fuel the
outer loop is still running. -/
theorem generateSuggestions_never_returns (toLower titleCaser : Str → Str)
    (rs : Nat → Nat) (fuel : Nat) :
    generateSuggestions toLower titleCaser rs fuel (str "Max") 20
        [str "happy", str "hungry"] [str "hero"] false 3
      = .error .outOfFuel := by
  rw [generateSuggestions_plain]
  have hA : (Shuffle rs [str "happy", str "hungry"] 0).1.length = 2 := Shuffle_length _ _ _
  have hN : (Shuffle rs [str "hero"]
      (Shuffle rs [str "happy", str "hungry"] 0).2).1.length = 1 := Shuffle_length _ _ _
  have hlen : (((str "Max").length : Nat) : Int) = 3 := by decide
  cases fuel with
  | zero =>
    unfold outerLoop
    rw [if_pos (by simp)]
  | succ fuel =>
    rw [outerLoop_bare_first titleCaser _ _ rs hlen (by decide), hA, hN, if_neg (by decide)]
    rw [outerLoop_stuck titleCaser rs (le_of_eq hlen.symm) fuel _ (Or.inl (by simp))
      (by simp) (by rw [hA, hN]; simp)]

/-- C5 (refuted on the code): `filterByInitialLetter`, "Filter words by their
initial letter", compares the first byte only. The name is the character
U+65E5 (bytes E6 97 A5), the adjective the character U+660E (E6 98 8E), the
noun the character U+663C (E6 98 BC); none of them has case, so lower-casing
and title-casing keep them. Under alliteration the adjective passes the filter
on the byte E6 and is appended, although its first letter is not the first
letter of the name. -/
theorem appended_word_other_letter :
    generateSuggestionsRun asciiToLower asciiTitle (fun _ => 0) 1 [230, 151, 165] 1
        [[230, 152, 142]] [[230, 152, 188]] true 20
      = .ok { state :=
                { suggestions := [[230, 151, 165, 230, 152, 142]],
                  combos := [[[230, 152, 142]]],
                  usedCombinations := [[230, 152, 142]],
                  cur := 3 },
              adjectives := [[230, 152, 142]],
              nouns := [[230, 152, 188]],
              callerAdjectives := [[230, 152, 142]],
              callerNouns := [[230, 152, 188]] } ∧
    firstLetter (asciiToLower [230, 152, 142]) ≠ firstLetter (asciiToLower [230, 151, 165]) := by
  decide

/-- What the byte filter does guarantee: under alliteration every word appended
to a returned suggestion is the title-casing of a word of the adjective or
noun list whose first byte is the first byte of the lowercased name. -/
theorem appended_words_pass_byte_filter (toLower titleCaser : Str → Str) (rs : Nat → Nat)
    (fuel : Nat) (name : Str) (count : Int) (adjectives nouns : List Str) (maxLength : Int)
    (out : Outcome)
    (h : generateSuggestionsRun toLower titleCaser rs fuel name count adjectives nouns true
      maxLength = .ok out) :
    ∀ ws ∈ out.state.combos, ∀ x ∈ ws,
      ∃ w, (w ∈ adjectives ∨ w ∈ nouns) ∧ w.head? = (toLower name).head? ∧
        x = titleCaser w := by
  have inv := run_inv h
  intro ws hws x hx
  obtain ⟨w, hw, hxw⟩ := (inv.words ws hws).2 x hx
  rcases hw with hw | hw
  · exact ⟨w, Or.inl (inEffect_mem hw).1, (inEffect_mem hw).2, hxw⟩
  · exact ⟨w, Or.inr (inEffect_mem hw).1, (inEffect_mem hw).2, hxw⟩

/-- C6 (refuted on the code): the early return tests the lists filtered by
first byte, not by first letter. The name is the character U+65E5 (bytes
E6 97 A5), the adjective U+660E (E6 98 8E), the noun U+663C (E6 98 BC), none
with case. No adjective and no noun starts with the letter of the name, so
both lists filtered by that letter are empty; yet both words pass the filter
on the byte E6, and with the draws 0, 0, 0 the call returns a suggestion. -/
theorem suggestion_without_matching_letter :
    specFilterByLetter asciiToLower [230, 151, 165] [[230, 152, 142]] = [] ∧
    specFilterByLetter asciiToLower [230, 151, 165] [[230, 152, 188]] = [] ∧
    filterByInitialLetter [[230, 152, 142]] 230 = [[230, 152, 142]] ∧
    filterByInitialLetter [[230, 152, 188]] 230 = [[230, 152, 188]] ∧
    generateSuggestions asciiToLower asciiTitle (fun _ => 0) 1 [230, 151, 165] 20
        [[230, 152, 142]] [[230, 152, 188]] true 20
      = .ok [[230, 151, 165, 230, 152, 142]] := by
  decide

/-- The early return on the code's own filter: under alliteration, when the
lowercased name starts with the byte `initial` and the adjectives or the nouns
filtered by that byte are empty, the call returns the empty sequence, for
every count, `maxLength`, random stream and fuel, and its cursor into the
random stream is still 0: no draw was made. -/
theorem empty_byte_filtered_list_gives_empty (toLower titleCaser : Str → Str) (rs : Nat → Nat)
    (fuel : Nat) (name : Str) (count : Int) (adjectives nouns : List Str) (maxLength : Int)
    (initial : Nat) (hini : (toLower name)[0]? = some initial)
    (hempty : filterByInitialLetter adjectives initial = [] ∨
      filterByInitialLetter nouns initial = []) :
    generateSuggestions toLower titleCaser rs fuel name count adjectives nouns true maxLength
      = .ok [] ∧
    ∃ out, generateSuggestionsRun toLower titleCaser rs fuel name count adjectives nouns true
      maxLength = .ok out ∧ out.state.suggestions = [] ∧ out.state.cur = 0 := by
  have hz : (filterByInitialLetter adjectives initial).length = 0 ∨
      (filterByInitialLetter nouns initial).length = 0 := by
    rcases hempty with he | he
    · left; rw [he]; rfl
    · right; rw [he]; rfl
  have hrun : generateSuggestionsRun toLower titleCaser rs fuel name count adjectives nouns
      true maxLength
      = .ok { state := { suggestions := [], combos := [], usedCombinations := [], cur := 0 },
              adjectives := filterByInitialLetter adjectives initial,
              nouns := filterByInitialLetter nouns initial,
              callerAdjectives := adjectives, callerNouns := nouns } := by
    unfold generateSuggestionsRun
    simp only [if_true, hini]
    rw [if_pos hz]
  refine ⟨?_, _, hrun, rfl, rfl⟩
  unfold generateSuggestions
  rw [hrun]

/-- C7: the result of `generateSuggestions` has at most `count` elements when
`count ≥ 0` and is empty when `count ≤ 0`; and with `count ≤ 0` the call does
return the empty sequence (given, under alliteration, a name whose lowercased
form is not empty). -/
theorem suggestions_length_le_count (toLower titleCaser : Str → Str) (rs : Nat → Nat)
    (fuel : Nat) (name : Str) (count : Int) (adjectives nouns : List Str)
    (alliteration : Bool) (maxLength : Int) (r : List Str) :
    (generateSuggestions toLower titleCaser rs fuel name count adjectives nouns
        alliteration maxLength = .ok r →
      (0 ≤ count → (r.length : Int) ≤ count) ∧ (count ≤ 0 → r = [])) ∧
    (count ≤ 0 → (alliteration = true → toLower name ≠ []) →
      generateSuggestions toLower titleCaser rs fuel name count adjectives nouns
        alliteration maxLength = .ok []) := by
  constructor
  · intro h
    obtain ⟨out, ho, hr⟩ := run_of_generateSuggestions h
    have hb := (run_inv ho).bound
    rw [hr] at hb
    constructor
    · intro hc
      rwa [max_eq_left hc] at hb
    · intro hc
      rw [max_eq_right hc] at hb
      have : r.length = 0 := by omega
      exact List.length_eq_zero.mp this
  · intro hc hname
    have hdone : ∀ (as ns : List Str) (cur : Nat),
        outerLoop titleCaser name count as ns maxLength rs fuel
          { suggestions := [], combos := [], usedCombinations := [], cur := cur }
        = .ok { suggestions := [], combos := [], usedCombinations := [], cur := cur } :=
      fun as ns cur => outerLoop_done titleCaser name as ns maxLength rs fuel
        (by simpa using hc)
    have hfrom : ∀ as ns : List Str, ∃ st sa sn,
        generateFrom titleCaser rs fuel name count as ns maxLength = .ok (st, sa, sn) ∧
        st.suggestions = [] := by
      intro as ns
      unfold generateFrom
      dsimp only
      rw [hdone]
      exact ⟨_, _, _, rfl, rfl⟩
    unfold generateSuggestions generateSuggestionsRun
    cases alliteration with
    | false =>
      obtain ⟨st, sa, sn, hg, hs⟩ := hfrom adjectives nouns
      simp only [Bool.false_eq_true, if_false, hg, hs]
    | true =>
      obtain ⟨initial, rest, hl⟩ := List.exists_cons_of_ne_nil (hname rfl)
      have hini : (toLower name)[0]? = some initial := by rw [hl]; simp
      simp only [if_true, hini]
      split_ifs
      · rfl
      · obtain ⟨st, sa, sn, hg, hs⟩ := hfrom (filterByInitialLetter adjectives initial)
          (filterByInitialLetter nouns initial)
        simp only [hg, hs]

/-- A run of the spec's alliteration scenario with `count = 3`: three
suggestions are returned. -/
theorem suggestions_length_le_count_witness :
    generateSuggestions asciiToLower asciiTitle demoStream 5 (str "H") 3 demoAdjectives
        demoNouns true 20
      = .ok [str "HHungry", str "HHawkHawk", str "HHungryHungry"] ∧
    (((0 : Int) ≤ 3 →
        (([str "HHungry", str "HHawkHawk", str "HHungryHungry"].length : Nat) : Int) ≤ 3) ∧
      ((3 : Int) ≤ 0 → [str "HHungry", str "HHawkHawk", str "HHungryHungry"] = [])) :=
  ⟨by decide,
   (suggestions_length_le_count asciiToLower asciiTitle demoStream 5 (str "H") 3
     demoAdjectives demoNouns true 20 _).1 (by decide)⟩

/-- C8 (refuted as stated): with name "Max", no alliteration and `maxLength`
3 the result is not empty: the candidate with zero appended words is accepted.
Here with `count` 20 and one adjective and one noun. -/
theorem bare_name_returned_not_empty :
    generateSuggestions asciiToLower asciiTitle (fun _ => 0) 1 (str "Max") 20
        [str "happy"] [str "hero"] false 3 = .ok [str "Max"] ∧
    generateSuggestions asciiToLower asciiTitle (fun _ => 0) 1 (str "Max") 20
        [str "happy"] [str "hero"] false 3 ≠ .ok [] := by
  decide

/-- C8 (amended): with name "Max", no alliteration, `maxLength` 3 and
`count ≥ 1`, whatever the call returns is exactly the bare name ["Max"]; and it
does return that, after one iteration, when `count = 1` or
`|adjectives| * |nouns| ≤ 1`. -/
theorem bare_name_is_the_result (toLower titleCaser : Str → Str) (rs : Nat → Nat)
    (fuel : Nat) (count : Int) (adjectives nouns : List Str) (r : List Str)
    (hcount : 1 ≤ count) :
    (generateSuggestions toLower titleCaser rs fuel (str "Max") count adjectives nouns
        false 3 = .ok r → r = [str "Max"]) ∧
    (1 ≤ fuel → (count = 1 ∨ adjectives.length * nouns.length ≤ 1) →
      generateSuggestions toLower titleCaser rs fuel (str "Max") count adjectives nouns
        false 3 = .ok [str "Max"]) := by
  have hlen : (((str "Max").length : Nat) : Int) = 3 := by decide
  have hc0 : (0 : Int) < count := by omega
  have hA : (Shuffle rs adjectives 0).1.length = adjectives.length := Shuffle_length _ _ _
  have hN : (Shuffle rs nouns (Shuffle rs adjectives 0).2).1.length = nouns.length :=
    Shuffle_length _ _ _
  rw [generateSuggestions_plain]
  cases fuel with
  | zero =>
    refine ⟨?_, fun h => absurd h (by decide)⟩
    unfold outerLoop
    rw [if_pos (by simpa using hc0)]
    intro h
    cases h
  | succ fuel =>
    rw [outerLoop_bare_first titleCaser _ _ rs hlen hc0, hA, hN]
    by_cases hp : adjectives.length * nouns.length ≤ 1
    · rw [if_pos hp]
      exact ⟨fun h => by cases h; rfl, fun _ _ => rfl⟩
    · rw [if_neg hp]
      constructor
      · intro h
        split at h
        · cases h
        · rename_i st1 hst
          cases h
          exact outerLoop_pinned titleCaser rs (le_of_eq hlen.symm) fuel _ st1
            (Or.inl (by simp)) hst
      · intro _ hor
        have hc1 : count = 1 := by
          rcases hor with hor | hor
          · exact hor
          · exact absurd hor hp
        have hg : ¬ ((([str "Max"] : List Str).length : Int) < count) := by
          rw [hc1]; decide
        have hstop : outerLoop titleCaser (str "Max") count (Shuffle rs adjectives 0).1
            (Shuffle rs nouns (Shuffle rs adjectives 0).2).1 3 rs fuel
            { suggestions := [str "Max"], combos := [[]], usedCombinations := [[]],
              cur := (Shuffle rs nouns (Shuffle rs adjectives 0).2).2 + 1 }
            = .ok { suggestions := [str "Max"], combos := [[]], usedCombinations := [[]],
                    cur := (Shuffle rs nouns (Shuffle rs adjectives 0).2).2 + 1 } := by
          cases fuel with
          | zero => unfold outerLoop; rw [if_neg hg]
          | succ fuel => unfold outerLoop; rw [if_neg hg]
        rw [hstop]

/-- Name "Max", `maxLength` 3, `count` 20, one adjective and one noun: the call
returns ["Max"]. -/
theorem bare_name_is_the_result_witness :
    (1 : Int) ≤ 20 ∧
    ((generateSuggestions asciiToLower asciiTitle (fun _ => 0) 1 (str "Max") 20
        [str "happy"] [str "hero"] false 3 = .ok [str "Max"] → [str "Max"] = [str "Max"]) ∧
    (1 ≤ 1 → ((20 : Int) = 1 ∨ [str "happy"].length * [str "hero"].length ≤ 1) →
      generateSuggestions asciiToLower asciiTitle (fun _ => 0) 1 (str "Max") 20
        [str "happy"] [str "hero"] false 3 = .ok [str "Max"])) :=
  ⟨by decide,
   bare_name_is_the_result asciiToLower asciiTitle (fun _ => 0) 1 20 [str "happy"]
     [str "hero"] [str "Max"] (by decide)⟩

/-- C9 (refuted on the code): with name "Maximilian", `maxLength` 3, `count`
20, one adjective and one noun and no alliteration, no word can be appended and
the name alone is too long, so the claim expects the empty result; but nothing
is ever accepted, the exhaustion check `0 >= 1 * 1` fails on every iteration,
and for every random stream and every amount of fuel the call has not
returned. -/
theorem too_long_name_never_returns (toLower titleCaser : Str → Str) (rs : Nat → Nat)
    (fuel : Nat) :
    generateSuggestions toLower titleCaser rs fuel (str "Maximilian") 20
        [str "happy"] [str "hero"] false 3
      = .error .outOfFuel := by
  rw [generateSuggestions_plain]
  have hA : (Shuffle rs [str "happy"] 0).1.length = 1 := Shuffle_length _ _ _
  have hN : (Shuffle rs [str "hero"] (Shuffle rs [str "happy"] 0).2).1.length = 1 :=
    Shuffle_length _ _ _
  have hlen : (3 : Int) < (((str "Maximilian").length : Nat) : Int) := by decide
  rw [outerLoop_stuck titleCaser rs (le_of_lt hlen) fuel _ (Or.inr hlen)
    (by simp) (by rw [hA, hN]; simp)]

/-- C10: every returned suggestion is `name` followed by the concatenation of
at most 5 words, each the title-casing of an element of the adjective or noun
list in effect (after alliteration filtering); in particular `name` is a
prefix of every suggestion. -/
theorem suggestion_is_name_plus_title_words (toLower titleCaser : Str → Str)
    (rs : Nat → Nat) (fuel : Nat) (name : Str) (count : Int) (adjectives nouns : List Str)
    (alliteration : Bool) (maxLength : Int) (r : List Str)
    (h : generateSuggestions toLower titleCaser rs fuel name count adjectives nouns
      alliteration maxLength = .ok r) :
    ∀ s ∈ r, ∃ ws : List Str,
      s = name ++ ws.flatten ∧ ws.length ≤ 5 ∧
      (∀ x ∈ ws, ∃ w, (w ∈ inEffect toLower name alliteration adjectives ∨
          w ∈ inEffect toLower name alliteration nouns) ∧ x = titleCaser w) ∧
      name <+: s := by
  obtain ⟨out, ho, hr⟩ := run_of_generateSuggestions h
  have inv := run_inv ho
  intro s hs
  rw [← hr, inv.sugg, List.mem_map] at hs
  obtain ⟨ws, hws, hsw⟩ := hs
  refine ⟨ws, hsw.symm, (inv.words ws hws).1, (inv.words ws hws).2, ?_⟩
  rw [← hsw]
  exact List.prefix_append _ _

/-- A run of the spec's alliteration scenario: each of the three suggestions is
"H" followed by at most 5 title-cased words of the filtered lists. -/
theorem suggestion_is_name_plus_title_words_witness :
    generateSuggestions asciiToLower asciiTitle demoStream 5 (str "H") 3 demoAdjectives
        demoNouns true 20
      = .ok [str "HHungry", str "HHawkHawk", str "HHungryHungry"] ∧
    ∀ s ∈ [str "HHungry", str "HHawkHawk", str "HHungryHungry"], ∃ ws : List Str,
      s = str "H" ++ ws.flatten ∧ ws.length ≤ 5 ∧
      (∀ x ∈ ws, ∃ w, (w ∈ inEffect asciiToLower (str "H") true demoAdjectives ∨
          w ∈ inEffect asciiToLower (str "H") true demoNouns) ∧ x = asciiTitle w) ∧
      str "H" <+: s :=
  ⟨by decide,
   suggestion_is_name_plus_title_words asciiToLower asciiTitle demoStream 5 (str "H") 3
     demoAdjectives demoNouns true 20 _ (by decide)⟩

/-! ## The word source -/

theorem HasSuffix_iff (s suffix : Str) : HasSuffix s suffix = true ↔ suffix <:+ s := by
  unfold HasSuffix
  rw [Bool.and_eq_true, decide_eq_true_eq, decide_eq_true_eq]
  constructor
  · rintro ⟨_, h⟩
    exact List.suffix_iff_eq_drop.mpr h.symm
  · intro h
    exact ⟨h.length_le, (List.suffix_iff_eq_drop.mp h).symm⟩

theorem loadWordsLoop_eq (toLower : Str → Str) :
    ∀ (lines : List Str) (adjectives nouns : List Str),
      loadWordsLoop toLower lines (adjectives, nouns)
        = (adjectives ++ (lines.map toLower).filter specAdjective,
           nouns ++ (lines.map toLower).filter specNoun) := by
  intro lines
  induction lines with
  | nil => intro adjectives nouns; simp [loadWordsLoop]
  | cons line rest ih =>
    intro adjectives nouns
    unfold loadWordsLoop
    dsimp only
    by_cases hlen : 3 < (toLower line).length ∧ (toLower line).length < 12
    · rw [if_pos hlen]
      by_cases hadj : (HasSuffix (toLower line) (str "y")
          || HasSuffix (toLower line) (str "ous")) = true
      · rw [if_pos hadj, ih]
        have ha : specAdjective (toLower line) = true := by
          rw [Bool.or_eq_true, HasSuffix_iff, HasSuffix_iff] at hadj
          simp only [specAdjective, decide_eq_true_eq]
          exact ⟨hlen.1, hlen.2, hadj⟩
        have hn : specNoun (toLower line) = false := by
          simp [specNoun, ha]
        simp [List.filter_cons, ha, hn]
      · rw [if_neg hadj]
        have ha : specAdjective (toLower line) = false := by
          rw [Bool.or_eq_true, HasSuffix_iff, HasSuffix_iff] at hadj
          simp only [specAdjective, decide_eq_false_iff_not]
          exact fun h => hadj h.2.2
        by_cases hnoun : (HasSuffix (toLower line) (str "er")
            || HasSuffix (toLower line) (str "ion")
            || HasSuffix (toLower line) (str "ist")) = true
        · rw [if_pos hnoun, ih]
          have hn : specNoun (toLower line) = true := by
            rw [Bool.or_eq_true, Bool.or_eq_true, HasSuffix_iff, HasSuffix_iff,
              HasSuffix_iff, or_assoc] at hnoun
            simp only [specNoun, decide_eq_true_eq]
            exact ⟨hlen.1, hlen.2, ha, hnoun⟩
          simp [List.filter_cons, ha, hn]
        · rw [if_neg hnoun, ih]
          have hn : specNoun (toLower line) = false := by
            rw [Bool.or_eq_true, Bool.or_eq_true, HasSuffix_iff, HasSuffix_iff,
              HasSuffix_iff, or_assoc] at hnoun
            simp only [specNoun, decide_eq_false_iff_not]
            exact fun h => hnoun h.2.2.2
          simp [List.filter_cons, ha, hn]
    · rw [if_neg hlen, ih]
      have ha : specAdjective (toLower line) = false := by
        simp only [specAdjective, decide_eq_false_iff_not]
        exact fun h => hlen ⟨h.1, h.2.1⟩
      have hn : specNoun (toLower line) = false := by
        simp only [specNoun, decide_eq_false_iff_not]
        exact fun h => hlen ⟨h.1, h.2.1⟩
      simp [List.filter_cons, ha, hn]

theorem getLast?_of_suffix {suffix w : Str} (h : suffix <:+ w) (hne : suffix ≠ []) :
    w.getLast? = suffix.getLast? := by
  obtain ⟨t, rfl⟩ := h
  rw [List.getLast?_append]
  cases hs : suffix.getLast? with
  | none => exact absurd (List.getLast?_eq_none_iff.mp hs) hne
  | some b => rfl

/-- An adjective suffix ("y", "ous") and a noun suffix ("er", "ion", "ist")
never end the same word: the last bytes differ. -/
theorem suffixes_exclusive (w : Str) :
    ¬ ((HasSuffix w (str "y") || HasSuffix w (str "ous")) = true ∧
       (HasSuffix w (str "er") || HasSuffix w (str "ion") || HasSuffix w (str "ist")) = true) := by
  rintro ⟨hadj, hnoun⟩
  rw [Bool.or_eq_true, HasSuffix_iff, HasSuffix_iff] at hadj
  rw [Bool.or_eq_true, Bool.or_eq_true, HasSuffix_iff, HasSuffix_iff, HasSuffix_iff] at hnoun
  have hlast : w.getLast? = some 121 ∨ w.getLast? = some 115 := by
    rcases hadj with h | h
    · left; rw [getLast?_of_suffix h (by decide)]; decide
    · right; rw [getLast?_of_suffix h (by decide)]; decide
  have hlast2 : w.getLast? = some 114 ∨ w.getLast? = some 110 ∨ w.getLast? = some 116 := by
    rcases hnoun with (h | h) | h
    · left; rw [getLast?_of_suffix h (by decide)]; decide
    · right; left; rw [getLast?_of_suffix h (by decide)]; decide
    · right; right; rw [getLast?_of_suffix h (by decide)]; decide
  rcases hlast with h1 | h1 <;> rcases hlast2 with h2 | h2 | h2 <;>
    (rw [h1] at h2; exact absurd h2 (by decide))

/-! ## The claims on the word source -/

/-- C12: the classification step of `loadWords` lowercases each line to a word
and returns as adjectives exactly the words of length in (3, 12) ending in "y"
or "ous", as nouns exactly the words of length in (3, 12) that are not
adjective candidates and end in "er", "ion" or "ist"; every other word is
dropped, and both lists keep the input order (they are the two filters of the
lowercased lines). -/
theorem loadWords_classifies (toLower : Str → Str) (lines : List Str) :
    loadWords toLower lines
      = ((lines.map toLower).filter specAdjective, (lines.map toLower).filter specNoun) := by
  unfold loadWords
  rw [loadWordsLoop_eq]
  rfl

/-- C13: the adjectives and the nouns produced by the classification step of
`loadWords` have no string in common, and no word ends both in an adjective
suffix and in a noun suffix. -/
theorem loadWords_disjoint (toLower : Str → Str) (lines : List Str) :
    (∀ w, w ∈ (loadWords toLower lines).1 → w ∉ (loadWords toLower lines).2) ∧
    ∀ w : Str,
      ¬ ((HasSuffix w (str "y") || HasSuffix w (str "ous")) = true ∧
         (HasSuffix w (str "er") || HasSuffix w (str "ion")
            || HasSuffix w (str "ist")) = true) := by
  refine ⟨?_, suffixes_exclusive⟩
  intro w ha hn
  unfold loadWords at ha hn
  rw [loadWordsLoop_eq] at ha hn
  simp only [List.nil_append, List.mem_filter] at ha hn
  have h1 := ha.2
  have h2 := hn.2
  simp only [specNoun, decide_eq_true_eq] at h2
  rw [h1] at h2
  exact absurd h2.2.2.1 (by decide)

/-! ## The order of `sort.Strings` -/

theorem strLe_refl : ∀ a : Str, strLe a a = true
  | [] => rfl
  | x :: s => by simp [strLe, strLe_refl s]

theorem strLe_total : ∀ a b : Str, strLe a b = true ∨ strLe b a = true
  | [], _ => Or.inl rfl
  | _ :: _, [] => Or.inr rfl
  | x :: s, y :: t => by
    rcases Nat.lt_trichotomy x y with h | h | h
    · left; simp [strLe, h]
    · subst h
      rcases strLe_total s t with h1 | h1
      · left; simp [strLe, h1]
      · right; simp [strLe, h1]
    · right; simp [strLe, h]

theorem strLe_trans : ∀ a b c : Str, strLe a b = true → strLe b c = true → strLe a c = true
  | [], _, _, _, _ => rfl
  | _ :: _, [], _, h, _ => by simp [strLe] at h
  | _ :: _, _ :: _, [], _, h => by simp [strLe] at h
  | x :: s, y :: t, z :: u, h1, h2 => by
    simp only [strLe, Bool.or_eq_true, Bool.and_eq_true, decide_eq_true_eq] at h1 h2 ⊢
    rcases h1 with h1 | ⟨h1, h1s⟩
    · rcases h2 with h2 | ⟨h2, _⟩
      · left; omega
      · left; omega
    · rcases h2 with h2 | ⟨h2, h2s⟩
      · left; omega
      · right; exact ⟨by omega, strLe_trans s t u h1s h2s⟩

theorem strLe_antisymm : ∀ a b : Str, strLe a b = true → strLe b a = true → a = b
  | [], [], _, _ => rfl
  | [], _ :: _, _, h => by simp [strLe] at h
  | _ :: _, [], h, _ => by simp [strLe] at h
  | x :: s, y :: t, h1, h2 => by
    simp only [strLe, Bool.or_eq_true, Bool.and_eq_true, decide_eq_true_eq] at h1 h2
    rcases h1 with h1 | ⟨h1, h1s⟩
    · rcases h2 with h2 | ⟨h2, _⟩ <;> omega
    · rcases h2 with h2 | ⟨_, h2s⟩
      · omega
      · rw [h1, strLe_antisymm s t h1s h2s]

/-- The order `strLe` is the lexicographic order of the byte sequences. -/
theorem strLe_iff_lex : ∀ a b : Str, strLe a b = true ↔ a = b ∨ List.Lex (· < ·) a b
  | [], [] => by simp [strLe]
  | [], y :: t => by simp [strLe, List.Lex.nil]
  | x :: s, [] => by
    simp only [strLe, Bool.false_eq_true, false_iff]
    rintro (h | h)
    · cases h
    · cases h
  | x :: s, y :: t => by
    simp only [strLe, Bool.or_eq_true, Bool.and_eq_true, decide_eq_true_eq]
    constructor
    · rintro (h | ⟨h, hs⟩)
      · exact Or.inr (List.Lex.rel h)
      · subst h
        rcases (strLe_iff_lex s t).mp hs with h1 | h1
        · exact Or.inl (by rw [h1])
        · exact Or.inr (List.Lex.cons h1)
    · rintro (h | h)
      · cases h
        exact Or.inr ⟨rfl, strLe_refl _⟩
      · cases h with
        | cons h1 => exact Or.inr ⟨rfl, (strLe_iff_lex s t).mpr (Or.inr h1)⟩
        | rel h1 => exact Or.inl h1

theorem sortStrings_perm (words : List Str) : (sortStrings words).Perm words :=
  List.perm_insertionSort _ words

theorem sortStrings_sorted (words : List Str) :
    (sortStrings words).Sorted (fun a b => strLe a b = true) := by
  haveI : IsTotal Str (fun a b => strLe a b = true) := ⟨strLe_total⟩
  haveI : IsTrans Str (fun a b => strLe a b = true) := ⟨strLe_trans⟩
  exact List.sorted_insertionSort _ words

theorem sortStrings_eq_of_perm {ws1 ws2 : List Str} (h : ws1.Perm ws2) :
    sortStrings ws1 = sortStrings ws2 := by
  haveI : IsAntisymm Str (fun a b => strLe a b = true) := ⟨strLe_antisymm⟩
  exact List.eq_of_perm_of_sorted
    (((sortStrings_perm ws1).trans h).trans (sortStrings_perm ws2).symm)
    (sortStrings_sorted ws1) (sortStrings_sorted ws2)

/-! ## Joining with spaces -/

theorem joinSpace_nil : joinSpace [] = [] := rfl

theorem joinSpace_singleton (a : Str) : joinSpace [a] = a := by
  simp [joinSpace, List.intercalate, List.intersperse]

theorem joinSpace_cons_cons (a b : Str) (l : List Str) :
    joinSpace (a :: b :: l) = a ++ 32 :: joinSpace (b :: l) := by
  simp [joinSpace, List.intercalate, List.intersperse]

/-- Two space-free words followed by "nothing or a space and more" agree as
soon as the whole strings agree: the first space cuts the string. -/
theorem cut_at_space : ∀ (a b r1 r2 : Str), 32 ∉ a → 32 ∉ b →
    (r1 = [] ∨ ∃ t, r1 = 32 :: t) → (r2 = [] ∨ ∃ t, r2 = 32 :: t) →
    a ++ r1 = b ++ r2 → a = b ∧ r1 = r2
  | [], [], _, _, _, _, _, _, h => ⟨rfl, by simpa using h⟩
  | [], y :: b, r1, r2, _, hb, h1, _, h => by
    exfalso
    rcases h1 with h1 | ⟨t, h1⟩
    · subst h1; simp at h
    · subst h1
      simp only [List.nil_append, List.cons_append, List.cons.injEq] at h
      exact hb (by rw [← h.1]; exact List.mem_cons_self _ _)
  | x :: a, [], r1, r2, ha, _, _, h2, h => by
    exfalso
    rcases h2 with h2 | ⟨t, h2⟩
    · subst h2; simp at h
    · subst h2
      simp only [List.nil_append, List.cons_append, List.cons.injEq] at h
      exact ha (by rw [h.1]; exact List.mem_cons_self _ _)
  | x :: a, y :: b, r1, r2, ha, hb, h1, h2, h => by
    simp only [List.cons_append, List.cons.injEq] at h
    obtain ⟨hab, hr⟩ := cut_at_space a b r1 r2
      (fun hm => ha (List.mem_cons_of_mem _ hm)) (fun hm => hb (List.mem_cons_of_mem _ hm))
      h1 h2 h.2
    exact ⟨by rw [h.1, hab], hr⟩

/-- The part of the joined string after the first word. -/
theorem joinSpace_cons (a : Str) (l : List Str) :
    ∃ r, joinSpace (a :: l) = a ++ r ∧ (r = [] ∨ ∃ t, r = 32 :: t) ∧
      (l = [] → r = []) ∧ (∀ b l1, l = b :: l1 → r = 32 :: joinSpace (b :: l1)) := by
  cases l with
  | nil =>
    exact ⟨[], by rw [joinSpace_singleton, List.append_nil], Or.inl rfl, fun _ => rfl,
      fun b l1 h => by cases h⟩
  | cons b l1 =>
    exact ⟨32 :: joinSpace (b :: l1), joinSpace_cons_cons a b l1, Or.inr ⟨_, rfl⟩,
      (fun h => by cases h), (fun b1 l2 h => by cases h; rfl)⟩

/-- A non-empty list whose joined string is empty holds only the empty
word. -/
theorem joinSpace_eq_nil {l : List Str} (hne : l ≠ []) (h : joinSpace l = []) : l = [[]] := by
  cases l with
  | nil => exact absurd rfl hne
  | cons a t =>
    obtain ⟨r, hr, _, _, hc⟩ := joinSpace_cons a t
    rw [hr] at h
    obtain ⟨ha, hr0⟩ := List.append_eq_nil.mp h
    cases t with
    | nil => rw [ha]
    | cons c t1 =>
      rw [hc c t1 rfl] at hr0
      cases hr0

/-- On non-empty lists of words without a space, joining with spaces loses
nothing. -/
theorem joinSpace_injective : ∀ (l1 l2 : List Str), l1 ≠ [] → l2 ≠ [] →
    (∀ w ∈ l1, 32 ∉ w) → (∀ w ∈ l2, 32 ∉ w) →
    joinSpace l1 = joinSpace l2 → l1 = l2
  | [], _, hne, _, _, _, _ => absurd rfl hne
  | _ :: _, [], _, hne, _, _, _ => absurd rfl hne
  | a :: l1, b :: l2, _, _, h1, h2, h => by
    obtain ⟨r1, hr1, hs1, hn1, hc1⟩ := joinSpace_cons a l1
    obtain ⟨r2, hr2, hs2, hn2, hc2⟩ := joinSpace_cons b l2
    rw [hr1, hr2] at h
    obtain ⟨hab, hr⟩ := cut_at_space a b r1 r2 (h1 a (List.mem_cons_self _ _))
      (h2 b (List.mem_cons_self _ _)) hs1 hs2 h
    subst hab
    cases l1 with
    | nil =>
      cases l2 with
      | nil => rfl
      | cons c l2 =>
        rw [hn1 rfl, hc2 c l2 rfl] at hr
        cases hr
    | cons c l1 =>
      cases l2 with
      | nil =>
        rw [hc1 c l1 rfl, hn2 rfl] at hr
        cases hr
      | cons d l2 =>
        rw [hc1 c l1 rfl, hc2 d l2 rfl] at hr
        have hj : joinSpace (c :: l1) = joinSpace (d :: l2) := (List.cons.inj hr).2
        rw [joinSpace_injective (c :: l1) (d :: l2) (List.cons_ne_nil _ _)
          (List.cons_ne_nil _ _)
          (fun w hw => h1 w (List.mem_cons_of_mem _ hw))
          (fun w hw => h2 w (List.mem_cons_of_mem _ hw)) hj]

theorem sortStrings_ne_nil {ws : List Str} (h : ws ≠ []) : sortStrings ws ≠ [] := by
  intro hs
  have hp := sortStrings_perm ws
  rw [hs] at hp
  exact h (List.perm_nil.mp hp.symm)

/-- A list other than `[]` with the key "" is the list `[""]`. -/
theorem eq_singleton_nil_of_key_nil {ws : List Str} (hne : ws ≠ [])
    (h : normalizeCombination ws = []) : ws = [[]] := by
  have hs : sortStrings ws = [[]] := joinSpace_eq_nil (sortStrings_ne_nil hne) h
  have hp := sortStrings_perm ws
  rw [hs] at hp
  exact List.perm_singleton.mp hp.symm

/-! ## The claims on `normalizeCombination` -/

/-- C14: `normalizeCombination` does not depend on the append order: two word
lists that are permutations of each other get the same key, and the key is the
words sorted alphabetically (in the bytewise lexicographic order `strLe`, see
`strLe_iff_lex`) and joined with single spaces. -/
theorem normalizeCombination_order_independent (ws1 ws2 : List Str) (h : ws1.Perm ws2) :
    normalizeCombination ws1 = normalizeCombination ws2 ∧
    ∃ sorted : List Str, sorted.Perm ws1 ∧ sorted.Sorted (fun a b => strLe a b = true) ∧
      normalizeCombination ws1 = List.intercalate [32] sorted := by
  refine ⟨?_, sortStrings ws1, sortStrings_perm ws1, sortStrings_sorted ws1, rfl⟩
  unfold normalizeCombination
  rw [sortStrings_eq_of_perm h]

/-- The words "Hungry", "Happy" in either order: the key is "Happy Hungry". -/
theorem normalizeCombination_order_independent_witness :
    [str "Hungry", str "Happy"].Perm [str "Happy", str "Hungry"] ∧
    normalizeCombination [str "Hungry", str "Happy"] = str "Happy Hungry" ∧
    (normalizeCombination [str "Hungry", str "Happy"]
        = normalizeCombination [str "Happy", str "Hungry"] ∧
      ∃ sorted : List Str, sorted.Perm [str "Hungry", str "Happy"] ∧
        sorted.Sorted (fun a b => strLe a b = true) ∧
        normalizeCombination [str "Hungry", str "Happy"] = List.intercalate [32] sorted) :=
  ⟨List.Perm.swap _ _ _, by decide,
   normalizeCombination_order_independent [str "Hungry", str "Happy"]
     [str "Happy", str "Hungry"] (List.Perm.swap _ _ _)⟩

/-- C19 (refuted as stated): the empty list and the list holding only the
empty word contain no space, are not permutations of each other, and get the
same key "". -/
theorem empty_word_key_collision :
    (∀ w ∈ ([] : List Str), 32 ∉ w) ∧ (∀ w ∈ ([[]] : List Str), 32 ∉ w) ∧
    normalizeCombination [] = normalizeCombination [[]] ∧
    ¬ ([] : List Str).Perm [[]] := by
  refine ⟨by simp, by simp, by decide, ?_⟩
  intro h
  exact absurd h.length_eq (by decide)

/-- On word lists without a space, other than the pair `[]` and `[""]`, the
key determines the list up to order. -/
theorem key_eq_iff_perm (ws1 ws2 : List Str)
    (h1 : ∀ w ∈ ws1, 32 ∉ w) (h2 : ∀ w ∈ ws2, 32 ∉ w)
    (hpair : ¬ (ws1 = [] ∧ ws2 = [[]]) ∧ ¬ (ws1 = [[]] ∧ ws2 = [])) :
    normalizeCombination ws1 = normalizeCombination ws2 ↔ ws1.Perm ws2 := by
  constructor
  · intro h
    by_cases e1 : ws1 = []
    · by_cases e2 : ws2 = []
      · rw [e1, e2]
      · exfalso
        rw [e1, normalizeCombination_nil] at h
        exact hpair.1 ⟨e1, eq_singleton_nil_of_key_nil e2 h.symm⟩
    · by_cases e2 : ws2 = []
      · exfalso
        rw [e2, normalizeCombination_nil] at h
        exact hpair.2 ⟨eq_singleton_nil_of_key_nil e1 h, e2⟩
      · have hs : sortStrings ws1 = sortStrings ws2 :=
          joinSpace_injective _ _ (sortStrings_ne_nil e1) (sortStrings_ne_nil e2)
            (fun w hw => h1 w ((sortStrings_perm ws1).subset hw))
            (fun w hw => h2 w ((sortStrings_perm ws2).subset hw)) h
        exact ((sortStrings_perm ws1).symm.trans (hs ▸ List.Perm.refl _)).trans
          (sortStrings_perm ws2)
  · intro h
    unfold normalizeCombination
    rw [sortStrings_eq_of_perm h]

/-- C19 (amended): for two word lists in which no word contains a space, other
than the pair made of the empty list and the list holding only the empty word,
`normalizeCombination` returns the same key for both if and only if the lists
are permutations of each other; so the uniqueness check never rejects a
candidate whose multiset of words is new. In a state of the outer loop (where
`usedCombinations` holds the keys of the recorded word lists `combos`) whose
recorded lists are of that kind, a candidate built from `ws1` that is a
permutation of no recorded list has a key that is not in `usedCombinations`,
and `accept` appends it when it fits `maxLength`. -/
theorem normalizeCombination_eq_iff_perm (ws1 ws2 : List Str)
    (h1 : ∀ w ∈ ws1, 32 ∉ w) (h2 : ∀ w ∈ ws2, 32 ∉ w)
    (hpair : ¬ (ws1 = [] ∧ ws2 = [[]]) ∧ ¬ (ws1 = [[]] ∧ ws2 = [])) :
    (normalizeCombination ws1 = normalizeCombination ws2 ↔ ws1.Perm ws2) ∧
    ∀ (maxLength : Int) (st : GenState) (c : Candidate),
      c.usedWords = ws1 →
      st.usedCombinations = st.combos.map normalizeCombination →
      (∀ ws ∈ st.combos, (∀ w ∈ ws, 32 ∉ w) ∧
        ¬ (ws1 = [] ∧ ws = [[]]) ∧ ¬ (ws1 = [[]] ∧ ws = [])) →
      (∀ ws ∈ st.combos, ¬ ws1.Perm ws) →
      normalizeCombination c.usedWords ∉ st.usedCombinations ∧
      ((c.suggestion.length : Int) ≤ maxLength →
        (accept maxLength st c).suggestions = st.suggestions ++ [c.suggestion]) := by
  refine ⟨key_eq_iff_perm ws1 ws2 h1 h2 hpair, ?_⟩
  intro maxLength st c hc hkeys hkind hnew
  have hnot : normalizeCombination c.usedWords ∉ st.usedCombinations := by
    rw [hc, hkeys]
    intro hmem
    obtain ⟨ws, hws, hk⟩ := List.mem_map.mp hmem
    obtain ⟨hsp, hp1, hp2⟩ := hkind ws hws
    exact hnew ws hws ((key_eq_iff_perm ws1 ws h1 hsp ⟨hp1, hp2⟩).mp hk.symm)
  refine ⟨hnot, fun hfit => ?_⟩
  unfold accept
  dsimp only
  rw [if_pos ⟨hfit, hnot⟩]

/-- The words "Hawk", "Hungry" in two orders have one key and the lists are
permutations of each other; and in the state reached by the spec's alliteration
scenario, whose recorded word lists are ["Hungry"], ["Hawk", "Hawk"] and
["Hungry", "Hungry"], the candidate built from "Hungry", "Hawk" is accepted. -/
theorem normalizeCombination_eq_iff_perm_witness :
    (∀ w ∈ [str "Hungry", str "Hawk"], 32 ∉ w) ∧
    (∀ w ∈ [str "Hawk", str "Hungry"], 32 ∉ w) ∧
    (¬ ([str "Hungry", str "Hawk"] = [] ∧ [str "Hawk", str "Hungry"] = [[]]) ∧
      ¬ ([str "Hungry", str "Hawk"] = [[]] ∧ [str "Hawk", str "Hungry"] = [])) ∧
    normalizeCombination [str "Hungry", str "Hawk"] = str "Hawk Hungry" ∧
    (normalizeCombination [str "Hungry", str "Hawk"]
        = normalizeCombination [str "Hawk", str "Hungry"]
      ↔ [str "Hungry", str "Hawk"].Perm [str "Hawk", str "Hungry"]) ∧
    (normalizeCombination demoCandidate.usedWords ∉ demoOutcome.state.usedCombinations ∧
      (accept 20 demoOutcome.state demoCandidate).suggestions
        = demoOutcome.state.suggestions ++ [str "HHungryHawk"]) :=
  ⟨by decide, by decide, by decide, by decide,
   (normalizeCombination_eq_iff_perm [str "Hungry", str "Hawk"] [str "Hawk", str "Hungry"]
     (by decide) (by decide) (by decide)).1,
   ((normalizeCombination_eq_iff_perm [str "Hungry", str "Hawk"] [str "Hawk", str "Hungry"]
     (by decide) (by decide) (by decide)).2 20 demoOutcome.state demoCandidate rfl
       (by decide) (by decide) (by decide)).1,
   ((normalizeCombination_eq_iff_perm [str "Hungry", str "Hawk"] [str "Hawk", str "Hungry"]
     (by decide) (by decide) (by decide)).2 20 demoOutcome.state demoCandidate rfl
       (by decide) (by decide) (by decide)).2 (by decide)⟩

/-! ## The shuffle is a permutation -/

theorem count_set_add {α : Type} [DecidableEq α] (a b : α) (l : List α) (i : Nat)
    (h : i < l.length) :
    (l.set i a).count b + (if l[i] = b then 1 else 0)
      = l.count b + (if a = b then 1 else 0) := by
  induction l generalizing i with
  | nil => simp at h
  | cons x t ih =>
    cases i with
    | zero =>
      simp only [List.set_cons_zero, List.count_cons, List.getElem_cons_zero, beq_iff_eq]
      omega
    | succ i =>
      have h1 : i < t.length := by simpa using h
      have := ih i h1
      simp only [List.set_cons_succ, List.count_cons, List.getElem_cons_succ]
      omega

theorem swap_perm {xs : List Str} {i j : Nat} (hi : i < xs.length) (hj : j < xs.length) :
    (swap xs i j).Perm xs := by
  rw [List.perm_iff_count]
  intro b
  unfold swap
  rw [List.getD_eq_getElem _ _ hj, List.getD_eq_getElem _ _ hi]
  have hj1 : j < (xs.set i xs[j]).length := by rw [List.length_set]; exact hj
  have e1 := count_set_add xs[i] b (xs.set i xs[j]) j hj1
  have e2 := count_set_add xs[j] b xs i hi
  have hjj : (xs.set i xs[j])[j] = xs[j] := by
    rw [List.getElem_set]
    split_ifs <;> rfl
  rw [hjj] at e1
  omega

theorem shuffleLoop_perm (rs : Nat → Nat) :
    ∀ (i : Nat) (xs : List Str) (cur : Nat), (i < xs.length ∨ i = 0) →
      (shuffleLoop rs i xs cur).1.Perm xs := by
  intro i
  induction i with
  | zero => intro xs cur _; simp [shuffleLoop]
  | succ i ih =>
    intro xs cur h
    have hi : i + 1 < xs.length := by omega
    have hj : Intn rs cur (i + 2) < xs.length := by
      have : Intn rs cur (i + 2) < i + 2 := Nat.mod_lt _ (by omega)
      omega
    have hlen := swap_length xs (i + 1) (Intn rs cur (i + 2))
    simp only [shuffleLoop]
    exact (ih (swap xs (i + 1) (Intn rs cur (i + 2))) (cur + 1) (by left; omega)).trans
      (swap_perm hi hj)

theorem Shuffle_perm (rs : Nat → Nat) (xs : List Str) (cur : Nat) :
    (Shuffle rs xs cur).1.Perm xs :=
  shuffleLoop_perm rs (xs.length - 1) xs cur (by omega)

/-- What the call leaves in the caller's slices: without alliteration the
shuffled lists, with alliteration the lists as passed. -/
theorem run_caller_slices {toLower titleCaser : Str → Str} {rs : Nat → Nat} {fuel : Nat}
    {name : Str} {count : Int} {adjectives nouns : List Str} {alliteration : Bool}
    {maxLength : Int} {out : Outcome}
    (h : generateSuggestionsRun toLower titleCaser rs fuel name count adjectives nouns
      alliteration maxLength = .ok out) :
    (alliteration = true → out.callerAdjectives = adjectives ∧ out.callerNouns = nouns) ∧
    (alliteration = false →
      out.callerAdjectives = (Shuffle rs adjectives 0).1 ∧
      out.callerNouns = (Shuffle rs nouns (Shuffle rs adjectives 0).2).1) := by
  unfold generateSuggestionsRun at h
  cases alliteration with
  | true =>
    refine ⟨fun _ => ?_, (fun hf => by cases hf)⟩
    simp only [if_true] at h
    split at h
    · cases h
    · split_ifs at h
      · cases h; exact ⟨rfl, rfl⟩
      · split at h
        · cases h
        · cases h; exact ⟨rfl, rfl⟩
  | false =>
    refine ⟨(fun hf => by cases hf), fun _ => ?_⟩
    simp only [Bool.false_eq_true, if_false] at h
    split at h
    · cases h
    · rename_i st sa sn hg
      cases h
      unfold generateFrom at hg
      dsimp only at hg
      split at hg
      · cases hg
      · cases hg; exact ⟨rfl, rfl⟩

/-! ## The claims on the caller's slices and on one pick -/

/-- C15 (refuted as stated): without alliteration the shuffle runs on the
caller's slice. With the draws 0, 0, 0, ... the call for name "H", `count` 1,
adjectives ["happy", "hungry"], nouns ["hero", "hawk"] returns ["HHungry"] and
leaves the caller's slices as ["hungry", "happy"] and ["hawk", "hero"]: the
same words in another order. -/
theorem caller_slices_reordered :
    generateSuggestionsRun asciiToLower asciiTitle (fun _ => 0) 1 (str "H") 1
        demoAdjectives demoNouns false 20 = .ok reorderedOutcome ∧
    reorderedOutcome.callerAdjectives = [str "hungry", str "happy"] ∧
    reorderedOutcome.callerAdjectives ≠ demoAdjectives ∧
    reorderedOutcome.callerNouns = [str "hawk", str "hero"] ∧
    reorderedOutcome.callerNouns ≠ demoNouns := by
  decide

/-- C15 (amended): with alliteration the caller's two slices are as they were
passed (the loops run on filtered copies); without alliteration the two
shuffles run in place on the caller's slices, which afterwards hold a
permutation of what was passed: the same words, as often, possibly in another
order. -/
theorem caller_slices_kept_up_to_order (toLower titleCaser : Str → Str) (rs : Nat → Nat)
    (fuel : Nat) (name : Str) (count : Int) (adjectives nouns : List Str)
    (alliteration : Bool) (maxLength : Int) (out : Outcome)
    (h : generateSuggestionsRun toLower titleCaser rs fuel name count adjectives nouns
      alliteration maxLength = .ok out) :
    (alliteration = true → out.callerAdjectives = adjectives ∧ out.callerNouns = nouns) ∧
    (alliteration = false →
      out.callerAdjectives.Perm adjectives ∧ out.callerNouns.Perm nouns) := by
  obtain ⟨ht, hf⟩ := run_caller_slices h
  refine ⟨ht, fun ha => ?_⟩
  obtain ⟨e1, e2⟩ := hf ha
  rw [e1, e2]
  exact ⟨Shuffle_perm _ _ _, Shuffle_perm _ _ _⟩

/-- The call without alliteration on the draws 0, 0, 0, ...: the caller's
slices end as permutations of the lists passed. -/
theorem caller_slices_kept_up_to_order_witness :
    generateSuggestionsRun asciiToLower asciiTitle (fun _ => 0) 1 (str "H") 1
        demoAdjectives demoNouns false 20 = .ok reorderedOutcome ∧
    ((false = true →
        reorderedOutcome.callerAdjectives = demoAdjectives ∧
        reorderedOutcome.callerNouns = demoNouns) ∧
      (false = false →
        reorderedOutcome.callerAdjectives.Perm demoAdjectives ∧
        reorderedOutcome.callerNouns.Perm demoNouns)) :=
  ⟨by decide,
   caller_slices_kept_up_to_order asciiToLower asciiTitle (fun _ => 0) 1 (str "H") 1
     demoAdjectives demoNouns false 20 reorderedOutcome (by decide)⟩

/-- C16 (refuted on the code): with adjectives ["happy"], no nouns and a coin
flip of 1, the pick selects no word (`word` stays ""): the empty nouns are not
replaced by the adjectives, while empty adjectives do fall through to the
nouns. In a whole call with name "H", `count` 1, `maxLength` 20 and every draw
1, all 100 attempts select nothing and the bare name is returned. -/
theorem pick_without_fallback :
    pickWord [str "happy"] [] (fun _ => 1) 0 = .ok ([], 1) ∧
    pickWord [] [str "hero"] (fun _ => 1) 0 = .ok (str "hero", 1) ∧
    generateSuggestionsRun asciiToLower asciiTitle (fun _ => 1) 1 (str "H") 1
        [str "happy"] [] false 20
      = .ok { state :=
                { suggestions := [str "H"], combos := [[]], usedCombinations := [[]],
                  cur := 101 },
              adjectives := [str "happy"], nouns := [],
              callerAdjectives := [str "happy"], callerNouns := [] } := by
  decide

/-! ## The exhaustion check bounds the result -/

theorem accept_keys_length_le (maxLength : Int) (st : GenState) (c : Candidate) :
    (accept maxLength st c).usedCombinations.length ≤ st.usedCombinations.length + 1 := by
  unfold accept
  dsimp only
  split_ifs with hacc
  · unfold mapSet
    rw [if_neg hacc.2]
    simp
  · exact Nat.le_succ _

theorem outerLoop_keys_bound {titleCaser : Str → Str} {name : Str} {count : Int}
    {adjectives nouns : List Str} {maxLength : Int} {rs : Nat → Nat} :
    ∀ (fuel : Nat) (st st1 : GenState),
      outerLoop titleCaser name count adjectives nouns maxLength rs fuel st = .ok st1 →
      (st.usedCombinations.length < adjectives.length * nouns.length ∨
        st.usedCombinations.length = 0) →
      st1.usedCombinations.length ≤ max 1 (adjectives.length * nouns.length) := by
  intro fuel
  induction fuel with
  | zero =>
    intro st st1 h hst
    unfold outerLoop at h
    split_ifs at h
    cases h
    rcases hst with hst | hst <;> omega
  | succ fuel ih =>
    intro st st1 h hst
    unfold outerLoop at h
    split_ifs at h with hg
    · dsimp only at h
      split at h
      · cases h
      · rename_i c hp
        have hle := accept_keys_length_le maxLength st c
        split_ifs at h with hbrk
        · cases h
          rcases hst with hst | hst <;> omega
        · exact ih _ _ h (Or.inl (by omega))
    · cases h
      rcases hst with hst | hst <;> omega

theorem generateFrom_keys_bound {titleCaser : Str → Str} {rs : Nat → Nat} {fuel : Nat}
    {name : Str} {count : Int} {adjectives nouns : List Str} {maxLength : Int}
    {st : GenState} {sadjectives snouns : List Str}
    (h : generateFrom titleCaser rs fuel name count adjectives nouns maxLength =
      .ok (st, sadjectives, snouns)) :
    st.usedCombinations.length ≤ max 1 (adjectives.length * nouns.length) := by
  unfold generateFrom at h
  dsimp only at h
  split at h
  · cases h
  · rename_i st0 hl
    cases h
    have := outerLoop_keys_bound fuel _ _ hl (Or.inr rfl)
    rwa [Shuffle_length, Shuffle_length] at this

theorem run_keys_bound {toLower titleCaser : Str → Str} {rs : Nat → Nat} {fuel : Nat}
    {name : Str} {count : Int} {adjectives nouns : List Str} {alliteration : Bool}
    {maxLength : Int} {out : Outcome}
    (h : generateSuggestionsRun toLower titleCaser rs fuel name count adjectives nouns
      alliteration maxLength = .ok out) :
    out.state.usedCombinations.length ≤
      max 1 ((inEffect toLower name alliteration adjectives).length *
        (inEffect toLower name alliteration nouns).length) := by
  unfold generateSuggestionsRun at h
  cases alliteration with
  | true =>
    simp only [if_true] at h
    split at h
    · cases h
    · rename_i initial hini
      have e1 : inEffect toLower name true adjectives = filterByInitialLetter adjectives initial := by
        simp [inEffect, hini]
      have e2 : inEffect toLower name true nouns = filterByInitialLetter nouns initial := by
        simp [inEffect, hini]
      rw [e1, e2]
      split_ifs at h
      · cases h
        exact Nat.zero_le _
      · split at h
        · cases h
        · rename_i st sa sn hg
          cases h
          exact generateFrom_keys_bound hg
  | false =>
    simp only [Bool.false_eq_true, if_false] at h
    split at h
    · cases h
    · rename_i st sa sn hg
      cases h
      simpa [inEffect] using generateFrom_keys_bound hg

/-! ## No index is out of range -/

theorem outerLoop_no_index_fault (titleCaser : Str → Str) (name : Str) (count : Int)
    (adjectives nouns : List Str) (maxLength : Int) (rs : Nat → Nat) :
    ∀ (fuel : Nat) (st : GenState),
      outerLoop titleCaser name count adjectives nouns maxLength rs fuel st
        ≠ .error .indexOutOfRange := by
  intro fuel
  induction fuel with
  | zero =>
    intro st h
    unfold outerLoop at h
    split_ifs at h
    cases h
  | succ fuel ih =>
    intro st h
    unfold outerLoop at h
    split_ifs at h with hg
    dsimp only at h
    obtain ⟨c, hc⟩ := pickLoop_ok titleCaser adjectives nouns maxLength (Intn rs st.cur 5 + 1)
      rs maxAttempts (newCandidate name (st.cur + 1)) (by simp [newCandidate])
    rw [hc] at h
    dsimp only at h
    split_ifs at h
    exact ih _ h

theorem generateFrom_no_index_fault (titleCaser : Str → Str) (rs : Nat → Nat) (fuel : Nat)
    (name : Str) (count : Int) (adjectives nouns : List Str) (maxLength : Int) :
    generateFrom titleCaser rs fuel name count adjectives nouns maxLength
      ≠ .error .indexOutOfRange := by
  intro h
  unfold generateFrom at h
  dsimp only at h
  split at h
  · rename_i e he
    cases h
    exact outerLoop_no_index_fault _ _ _ _ _ _ _ _ _ he
  · cases h

/-! ## The claims on the size of the result and on indexing -/

/-- C17: when a call returns, the number of returned suggestions equals the
number of recorded combination keys and is at most
`max(1, |adjectives| * |nouns|)` for the lists in effect after filtering; in
particular without alliteration and with one of the two lists empty at most
one suggestion is returned, whatever `count` is. -/
theorem suggestions_count_bounded (toLower titleCaser : Str → Str) (rs : Nat → Nat)
    (fuel : Nat) (name : Str) (count : Int) (adjectives nouns : List Str)
    (alliteration : Bool) (maxLength : Int) (out : Outcome)
    (h : generateSuggestionsRun toLower titleCaser rs fuel name count adjectives nouns
      alliteration maxLength = .ok out) :
    out.state.suggestions.length = out.state.usedCombinations.length ∧
    out.state.suggestions.length ≤
      max 1 ((inEffect toLower name alliteration adjectives).length *
        (inEffect toLower name alliteration nouns).length) ∧
    (alliteration = false → (adjectives = [] ∨ nouns = []) →
      out.state.suggestions.length ≤ 1) := by
  have inv := run_inv h
  have hb := run_keys_bound h
  have heq : out.state.suggestions.length = out.state.usedCombinations.length := by
    rw [inv.sugg, inv.keys, List.length_map, List.length_map]
  refine ⟨heq, heq ▸ hb, ?_⟩
  intro ha hempty
  rw [heq]
  subst ha
  have hz : (inEffect toLower name false adjectives).length *
      (inEffect toLower name false nouns).length = 0 := by
    rcases hempty with he | he
    · simp [inEffect, he]
    · simp [inEffect, he]
  rw [hz] at hb
  exact hb

/-- The spec's alliteration scenario: three suggestions, three keys, and
`2 * 2 = 4` combinations of the filtered lists. -/
theorem suggestions_count_bounded_witness :
    generateSuggestionsRun asciiToLower asciiTitle demoStream 5 (str "H") 3 demoAdjectives
        demoNouns true 20 = .ok demoOutcome ∧
    (inEffect asciiToLower (str "H") true demoAdjectives).length *
      (inEffect asciiToLower (str "H") true demoNouns).length = 4 ∧
    (demoOutcome.state.suggestions.length = demoOutcome.state.usedCombinations.length ∧
      demoOutcome.state.suggestions.length ≤
        max 1 ((inEffect asciiToLower (str "H") true demoAdjectives).length *
          (inEffect asciiToLower (str "H") true demoNouns).length) ∧
      (true = false → (demoAdjectives = [] ∨ demoNouns = []) →
        demoOutcome.state.suggestions.length ≤ 1)) :=
  ⟨by decide, by decide,
   suggestions_count_bounded asciiToLower asciiTitle demoStream 5 (str "H") 3
     demoAdjectives demoNouns true 20 demoOutcome (by decide)⟩

/-- C18: a call indexes out of range exactly when the name is empty and
alliteration is on (`strings.ToLower(name)[0]`); for a non-empty name no index
operation is out of range, whatever the random stream. The fact used of
`strings.ToLower`: it returns the empty string only for the empty string. -/
theorem index_fault_iff_empty_name (toLower titleCaser : Str → Str) (rs : Nat → Nat)
    (fuel : Nat) (name : Str) (count : Int) (adjectives nouns : List Str)
    (alliteration : Bool) (maxLength : Int)
    (hlib : toLower name = [] ↔ name = []) :
    generateSuggestions toLower titleCaser rs fuel name count adjectives nouns
        alliteration maxLength = .error .indexOutOfRange
      ↔ (name = [] ∧ alliteration = true) := by
  unfold generateSuggestions generateSuggestionsRun
  cases alliteration with
  | false =>
    simp only [Bool.false_eq_true, if_false, and_false, iff_false]
    intro h
    have hne := generateFrom_no_index_fault titleCaser rs fuel name count adjectives nouns
      maxLength
    cases hg : generateFrom titleCaser rs fuel name count adjectives nouns maxLength with
    | error e =>
      rw [hg] at h hne
      cases e with
      | indexOutOfRange => exact hne rfl
      | outOfFuel => cases h
    | ok v =>
      rw [hg] at h
      cases h
  | true =>
    simp only [if_true, and_true]
    cases hl : toLower name with
    | nil =>
      simp only [List.getElem?_nil]
      exact ⟨fun _ => hlib.mp hl, fun _ => trivial⟩
    | cons initial rest =>
      have hname : name ≠ [] := fun hn => by
        rw [hlib.mpr hn] at hl
        cases hl
      simp only [List.getElem?_cons_zero]
      refine ⟨fun h => ?_, fun hn => absurd hn hname⟩
      exfalso
      by_cases hz : (filterByInitialLetter adjectives initial).length = 0 ∨
          (filterByInitialLetter nouns initial).length = 0
      · rw [if_pos hz] at h
        cases h
      · rw [if_neg hz] at h
        have hne := generateFrom_no_index_fault titleCaser rs fuel name count
          (filterByInitialLetter adjectives initial) (filterByInitialLetter nouns initial)
          maxLength
        cases hg : generateFrom titleCaser rs fuel name count
            (filterByInitialLetter adjectives initial) (filterByInitialLetter nouns initial)
            maxLength with
        | error e =>
          rw [hg] at h hne
          cases e with
          | indexOutOfRange => exact hne rfl
          | outOfFuel => cases h
        | ok v =>
          rw [hg] at h
          cases h

/-- The empty name under alliteration indexes out of range; the name "H" in the
spec's scenario does not. -/
theorem index_fault_iff_empty_name_witness :
    (asciiToLower [] = [] ↔ ([] : Str) = []) ∧
    generateSuggestions asciiToLower asciiTitle demoStream 5 [] 3 demoAdjectives
        demoNouns true 20 = .error .indexOutOfRange ∧
    generateSuggestions asciiToLower asciiTitle demoStream 5 (str "H") 3 demoAdjectives
        demoNouns true 20 ≠ .error .indexOutOfRange ∧
    (generateSuggestions asciiToLower asciiTitle demoStream 5 [] 3 demoAdjectives
        demoNouns true 20 = .error .indexOutOfRange
      ↔ (([] : Str) = [] ∧ true = true)) :=
  ⟨by decide, by decide, by decide,
   index_fault_iff_empty_name asciiToLower asciiTitle demoStream 5 [] 3 demoAdjectives
     demoNouns true 20 (by decide)⟩

/-! ## Concatenations of capitalized words -/

theorem capitalized_cases {x : Str} (h : capitalized x = true) :
    ∃ u rest, x = u :: rest ∧ isUpperByte u = true ∧ ∀ c ∈ rest, isUpperByte c = false := by
  cases x with
  | nil => cases h
  | cons u rest =>
    simp only [capitalized, Bool.and_eq_true, List.all_eq_true, Bool.not_eq_true'] at h
    exact ⟨u, rest, rfl, h.1, h.2⟩

/-- Two runs of bytes that are not uppercase, each followed by "nothing or an
uppercase byte and more", agree as soon as the whole strings agree. -/
theorem cut_at_upper : ∀ (a b r1 r2 : Str),
    (∀ c ∈ a, isUpperByte c = false) → (∀ c ∈ b, isUpperByte c = false) →
    (r1 = [] ∨ ∃ c t, r1 = c :: t ∧ isUpperByte c = true) →
    (r2 = [] ∨ ∃ c t, r2 = c :: t ∧ isUpperByte c = true) →
    a ++ r1 = b ++ r2 → a = b ∧ r1 = r2
  | [], [], _, _, _, _, _, _, h => ⟨rfl, by simpa using h⟩
  | [], y :: b, r1, r2, _, hb, h1, _, h => by
    exfalso
    rcases h1 with h1 | ⟨c, t, h1, hc⟩
    · subst h1; simp at h
    · subst h1
      simp only [List.nil_append, List.cons_append, List.cons.injEq] at h
      have := hb y (List.mem_cons_self _ _)
      rw [← h.1, hc] at this
      cases this
  | x :: a, [], r1, r2, ha, _, _, h2, h => by
    exfalso
    rcases h2 with h2 | ⟨c, t, h2, hc⟩
    · subst h2; simp at h
    · subst h2
      simp only [List.nil_append, List.cons_append, List.cons.injEq] at h
      have := ha x (List.mem_cons_self _ _)
      rw [h.1, hc] at this
      cases this
  | x :: a, y :: b, r1, r2, ha, hb, h1, h2, h => by
    simp only [List.cons_append, List.cons.injEq] at h
    obtain ⟨hab, hr⟩ := cut_at_upper a b r1 r2
      (fun c hm => ha c (List.mem_cons_of_mem _ hm))
      (fun c hm => hb c (List.mem_cons_of_mem _ hm)) h1 h2 h.2
    exact ⟨by rw [h.1, hab], hr⟩

theorem flatten_capitalized_head : ∀ (ws : List Str), (∀ x ∈ ws, capitalized x = true) →
    ws.flatten = [] ∨ ∃ c t, ws.flatten = c :: t ∧ isUpperByte c = true
  | [], _ => Or.inl rfl
  | x :: ws, h => by
    obtain ⟨u, rest, hx, hu, _⟩ := capitalized_cases (h x (List.mem_cons_self _ _))
    right
    exact ⟨u, rest ++ ws.flatten, by rw [hx]; simp, hu⟩

/-- A string is the concatenation of at most one list of capitalized words:
the uppercase bytes mark where the words start. -/
theorem flatten_capitalized_injective : ∀ (ws1 ws2 : List Str),
    (∀ x ∈ ws1, capitalized x = true) → (∀ x ∈ ws2, capitalized x = true) →
    ws1.flatten = ws2.flatten → ws1 = ws2
  | [], [], _, _, _ => rfl
  | [], y :: ws2, _, h2, h => by
    exfalso
    obtain ⟨u, rest, hy, _, _⟩ := capitalized_cases (h2 y (List.mem_cons_self _ _))
    rw [hy] at h
    simp at h
  | x :: ws1, [], h1, _, h => by
    exfalso
    obtain ⟨u, rest, hx, _, _⟩ := capitalized_cases (h1 x (List.mem_cons_self _ _))
    rw [hx] at h
    simp at h
  | x :: ws1, y :: ws2, h1, h2, h => by
    obtain ⟨u, r, hx, _, hr⟩ := capitalized_cases (h1 x (List.mem_cons_self _ _))
    obtain ⟨v, q, hy, _, hq⟩ := capitalized_cases (h2 y (List.mem_cons_self _ _))
    have h1t : ∀ z ∈ ws1, capitalized z = true := fun z hz => h1 z (List.mem_cons_of_mem _ hz)
    have h2t : ∀ z ∈ ws2, capitalized z = true := fun z hz => h2 z (List.mem_cons_of_mem _ hz)
    rw [hx, hy] at h ⊢
    simp only [List.flatten_cons, List.cons_append, List.cons.injEq] at h
    obtain ⟨hrq, hf⟩ := cut_at_upper r q ws1.flatten ws2.flatten hr hq
      (flatten_capitalized_head ws1 h1t) (flatten_capitalized_head ws2 h2t) h.2
    rw [h.1, hrq, flatten_capitalized_injective ws1 ws2 h1t h2t hf]

/-! ## The claim on the returned strings -/

/-- C11 (refuted as stated): uniqueness is kept on the combination keys, not on
the strings. With name "N", adjectives ["1", "11"], nouns ["111"], no
alliteration, `count` 2, `maxLength` 20 and the draws 0, 0, 1, 0, 1, 0, 0, 0, 1
the call accepts "N" + "111" (key "111") and then "N" + "11" + "1" (key
"1 11"): the string "N111" is returned twice. -/
theorem same_string_returned_twice :
    generateSuggestions asciiToLower asciiTitle
        (fun n => [0, 0, 1, 0, 1, 0, 0, 0, 1].getD n 0) 2 (str "N") 2
        [str "1", str "11"] [str "111"] false 20
      = .ok [str "N111", str "N111"] := by
  decide

/-- C11 (amended): when the title-casing of every word of the lists in effect
is a capitalized word (an ASCII uppercase byte followed by bytes that are not
ASCII uppercase, as for lowercase dictionary words), the returned suggestion
strings are pairwise distinct: no string occurs at two different positions of
the result. -/
theorem suggestions_pairwise_distinct_of_capitalized (toLower titleCaser : Str → Str)
    (rs : Nat → Nat) (fuel : Nat) (name : Str) (count : Int) (adjectives nouns : List Str)
    (alliteration : Bool) (maxLength : Int) (r : List Str)
    (hcap : ∀ w ∈ inEffect toLower name alliteration adjectives ++
        inEffect toLower name alliteration nouns, capitalized (titleCaser w) = true)
    (h : generateSuggestions toLower titleCaser rs fuel name count adjectives nouns
      alliteration maxLength = .ok r) :
    ∀ (i j : Nat) (a b : Str), i ≠ j → r[i]? = some a → r[j]? = some b → a ≠ b := by
  obtain ⟨out, ho, hr⟩ := run_of_generateSuggestions h
  have inv := run_inv ho
  have hwords : ∀ ws ∈ out.state.combos, ∀ x ∈ ws, capitalized x = true := by
    intro ws hws x hx
    obtain ⟨w, hw, hxw⟩ := (inv.words ws hws).2 x hx
    rw [hxw]
    exact hcap w (List.mem_append.mpr hw)
  have hkeys : (out.state.combos.map normalizeCombination).Nodup := inv.keys ▸ inv.nodup
  have hcombos : out.state.combos.Nodup := List.Nodup.of_map _ hkeys
  have hnd : r.Nodup := by
    rw [← hr, inv.sugg]
    refine List.Nodup.map_on ?_ hcombos
    intro ws1 h1 ws2 h2 he
    exact flatten_capitalized_injective ws1 ws2 (hwords ws1 h1) (hwords ws2 h2)
      (List.append_cancel_left he)
  intro i j a b hij hi hj
  exact ne_of_nodup_index hnd hij hi hj

/-- The spec's alliteration scenario on the ASCII title caser: "Happy",
"Hungry", "Hero", "Hawk" are capitalized words and the three returned strings
differ. -/
theorem suggestions_pairwise_distinct_of_capitalized_witness :
    (∀ w ∈ inEffect asciiToLower (str "H") true demoAdjectives ++
        inEffect asciiToLower (str "H") true demoNouns, capitalized (asciiTitle w) = true) ∧
    generateSuggestions asciiToLower asciiTitle demoStream 5 (str "H") 3 demoAdjectives
        demoNouns true 20
      = .ok [str "HHungry", str "HHawkHawk", str "HHungryHungry"] ∧
    ∀ (i j : Nat) (a b : Str), i ≠ j →
      [str "HHungry", str "HHawkHawk", str "HHungryHungry"][i]? = some a →
      [str "HHungry", str "HHawkHawk", str "HHungryHungry"][j]? = some b → a ≠ b :=
  ⟨by decide, by decide,
   suggestions_pairwise_distinct_of_capitalized asciiToLower asciiTitle demoStream 5
     (str "H") 3 demoAdjectives demoNouns true 20 _ (by decide) (by decide)⟩

end Alliteration
